import Mathlib

/-!
# DtBlkFx `FixPoint` — a verification development

Shallow embedding of `src/support/FixPoint_.h`.

The C++ template `FixPoint<FRAC_BITS_, T, F>` stores one signed integer `val`
of storage type `T`; the represented value is `val / 2^FRAC_BITS`.

Machine integers are mathematical integers (`Int`) reduced explicitly to the
signed range of their type with `wrap`.  The storage type `T` is described by
its width `W` in bits.  `long` (the default `T`, "32 bits" in the header) is
`LONG_BITS = 32` bits wide and `long long` is `LLONG_BITS = 64` bits wide.
`>>` on a signed integer is the arithmetic shift, `/` on machine integers
truncates toward zero (`Int.tdiv`), `&` and `~` are the two's-complement
operations `Int.land` and `Int.not`.

Member functions that assign `val` take the receiver as `self` and return the
receiver after the call.
-/

namespace DtBlkFx

/-! ## Machine integers -/

/-- Width of the C++ type `long` (the default storage type, 32 bits). -/
abbrev LONG_BITS : Nat := 32

/-- Width of the C++ type `long long`. -/
abbrev LLONG_BITS : Nat := 64

/-- Two's-complement reduction of an integer to the signed `w`-bit range
`[-2^(w-1), 2^(w-1))`: what a signed `w`-bit register holds after an operation
whose exact result is `x`. -/
def wrap (w : Nat) (x : Int) : Int :=
  (x + 2 ^ (w - 1)) % 2 ^ w - 2 ^ (w - 1)

/-- The integer `x` is a value of the signed `w`-bit type. -/
def inRange (w : Nat) (x : Int) : Prop :=
  -(2 ^ (w - 1)) ≤ x ∧ x < 2 ^ (w - 1)

instance inRangeDecidable (w : Nat) (x : Int) : Decidable (inRange w x) := by
  unfold inRange
  infer_instance

/-- The C++ expression `x << s` evaluated in a signed `w`-bit type. -/
def shl (w : Nat) (x : Int) (s : Nat) : Int :=
  wrap w (x * 2 ^ s)

/-- The C++ expression `x >> s` on a signed integer: arithmetic shift. -/
def sar (x : Int) (s : Nat) : Int :=
  x >>> s

/-! ## Single-precision floating point

The conversion type `F` of the template is `float`.  A finite `float` is
identified with the rational number it denotes, and every conversion and
arithmetic operation delivers the exact result rounded to 24 significant bits,
to nearest with ties to the even significand (IEEE 754 binary32 in its default
rounding mode).  The exponent range is unbounded here: with 32-bit storage the
magnitudes that occur stay far inside the range of `float`, where neither
overflow nor subnormal numbers arise. -/

/-- The integer nearest to a rational, an exact tie going to the even neighbour. -/
def roundHalfEven (m : ℚ) : Int :=
  if m - ⌊m⌋ < 1 / 2 then ⌊m⌋
  else if 1 / 2 < m - ⌊m⌋ then ⌊m⌋ + 1
  else if ⌊m⌋ % 2 = 0 then ⌊m⌋ else ⌊m⌋ + 1

/-- The `float` nearest to the exact value `x`: with `e = ⌊log2 |x|⌋` the
significand `x / 2^(e-23)` is rounded to an integer (24 significant bits). -/
def roundFloat (x : ℚ) : ℚ :=
  if x = 0 then 0
  else (roundHalfEven (x / 2 ^ (Int.log 2 |x| - 23)) : ℚ) * 2 ^ (Int.log 2 |x| - 23)

/-- The C++ conversion `(T)f` of a `float` to an integer: truncation toward zero. -/
def truncInt (x : ℚ) : Int :=
  if 0 ≤ x then ⌊x⌋ else ⌈x⌉

/-! ## The `FixPoint` type -/

/-- The struct `FixPoint<FRAC_BITS, T>` with `T` a signed `W`-bit integer: the
single data member `val`. -/
structure FixPoint (FRAC_BITS : Nat) (W : Nat) where
  val : Int
deriving DecidableEq

namespace FixPoint

variable {FRAC_BITS FRAC_BITS2 W : Nat}

/-- Source: `static T FracMult() { return (T)1 << FRAC_BITS; }`. -/
def FracMult (FRAC_BITS W : Nat) : Int :=
  shl W 1 FRAC_BITS

/-- Source: `static T FracMask() { return FracMult()-1; }`. -/
def FracMask (FRAC_BITS W : Nat) : Int :=
  wrap W (FracMult FRAC_BITS W - 1)

/-- Source: `static T FracTopBit() { return (T)1<<(FRAC_BITS-1); }`.
The shift count `FRAC_BITS-1` is a natural number here; the C++ expression is
only defined for `FRAC_BITS >= 1`. -/
def FracTopBit (FRAC_BITS W : Nat) : Int :=
  shl W 1 (FRAC_BITS - 1)

/-- Source:
`static T shiftUp(T val, int shift) { if(shift < 0) return val >> -shift; return val << shift; }`. -/
def shiftUp (W : Nat) (val : Int) (shift : Int) : Int :=
  if shift < 0 then sar val (-shift).toNat else shl W val shift.toNat

/-- Source: `struct Pass` together with `FixPoint(Pass p) { val = p.val; }`:
wraps a raw storage value without scaling. -/
def Pass (src : Int) : FixPoint FRAC_BITS W :=
  ⟨src⟩

/-- Source: `T getRound() const { return (val + FracTopBit()) >> FRAC_BITS; }`. -/
def getRound (self : FixPoint FRAC_BITS W) : Int :=
  sar (wrap W (self.val + FracTopBit FRAC_BITS W)) FRAC_BITS

/-- Source: `T getCeil() const  { return (val + FracMask()) >> FRAC_BITS; }`. -/
def getCeil (self : FixPoint FRAC_BITS W) : Int :=
  sar (wrap W (self.val + FracMask FRAC_BITS W)) FRAC_BITS

/-- Source: `T getFloor() const { return val >> FRAC_BITS; }`. -/
def getFloor (self : FixPoint FRAC_BITS W) : Int :=
  sar self.val FRAC_BITS

/-- Source: `FixPoint(int src) { val = (T)src << FRAC_BITS; }`. -/
def ofInt (src : Int) : FixPoint FRAC_BITS W :=
  ⟨shl W (wrap W src) FRAC_BITS⟩

/-- Source: `FixPoint(T src) { val = src << FRAC_BITS; }`. -/
def ofT (src : Int) : FixPoint FRAC_BITS W :=
  ⟨shl W src FRAC_BITS⟩

/-- Source:
`template <int FRAC_BITS2> void setTrunc(FixPoint<FRAC_BITS2, T> src) { val = shiftUp(src.val, FRAC_BITS-FRAC_BITS2); }`. -/
def setTrunc (_self : FixPoint FRAC_BITS W) (src : FixPoint FRAC_BITS2 W) :
    FixPoint FRAC_BITS W :=
  ⟨shiftUp W src.val ((FRAC_BITS : Int) - (FRAC_BITS2 : Int))⟩

/-- Source:
`template <int FRAC_BITS2> FixPoint(FixPoint<FRAC_BITS2, T> src) { setTrunc(src); }`.
The object under construction has no value yet; `setTrunc` does not read it. -/
def ofFixPoint (src : FixPoint FRAC_BITS2 W) : FixPoint FRAC_BITS W :=
  setTrunc (Pass 0) src

/-- Source:
`template <int FRAC_BITS2> void doDiv64Trunc(FixPoint<FRAC_BITS2> div) { val = (T)(((long long)val<<FRAC_BITS2) / div.val); }`.
The divisor has the default storage type `long`.  A zero divisor traps in C++;
here `Int.tdiv` returns 0 and no theorem below speaks about that case. -/
def doDiv64Trunc (self : FixPoint FRAC_BITS W) (div : FixPoint FRAC_BITS2 LONG_BITS) :
    FixPoint FRAC_BITS W :=
  ⟨wrap W (Int.tdiv (shl LLONG_BITS (wrap LLONG_BITS self.val) FRAC_BITS2) div.val)⟩

/-- Source:
`template <int FRAC_BITS2> void doDiv64Closest(FixPoint<FRAC_BITS2> div) { val = (T)((((long long)val<<(FRAC_BITS2+1))+div.val) / (div.val<<1)); }`.
`div.val<<1` is computed in `long` and then promoted. -/
def doDiv64Closest (self : FixPoint FRAC_BITS W) (div : FixPoint FRAC_BITS2 LONG_BITS) :
    FixPoint FRAC_BITS W :=
  ⟨wrap W (Int.tdiv
    (wrap LLONG_BITS (shl LLONG_BITS (wrap LLONG_BITS self.val) (FRAC_BITS2 + 1) + div.val))
    (shl LONG_BITS div.val 1))⟩

/-- Source:
`template <int FRAC_BITS2> void doDiv32Closest(FixPoint<FRAC_BITS2> div) { val = (T)((((long)val<<(FRAC_BITS2+1))+div.val) / (div.val<<1)); }`. -/
def doDiv32Closest (self : FixPoint FRAC_BITS W) (div : FixPoint FRAC_BITS2 LONG_BITS) :
    FixPoint FRAC_BITS W :=
  ⟨wrap W (Int.tdiv
    (wrap LONG_BITS (shl LONG_BITS (wrap LONG_BITS self.val) (FRAC_BITS2 + 1) + div.val))
    (shl LONG_BITS div.val 1))⟩

/-- Source:
`template <int FRAC_BITS2> void doMul64Trunc(FixPoint<FRAC_BITS2> mul) { val = (T)(((long long)val*(long long)mul.val) >> mul.FRAC_BITS); }`. -/
def doMul64Trunc (self : FixPoint FRAC_BITS W) (mul : FixPoint FRAC_BITS2 LONG_BITS) :
    FixPoint FRAC_BITS W :=
  ⟨wrap W (sar (wrap LLONG_BITS (wrap LLONG_BITS self.val * wrap LLONG_BITS mul.val)) FRAC_BITS2)⟩

/-- Source:
`template <int FRAC_BITS2> FixPoint operator / (FixPoint<FRAC_BITS2> div) { FixPoint t = Pass(val); t.doDiv64Trunc(div); return t; }`. -/
def opDiv (self : FixPoint FRAC_BITS W) (div : FixPoint FRAC_BITS2 LONG_BITS) :
    FixPoint FRAC_BITS W :=
  doDiv64Trunc (Pass self.val) div

/-- Source:
`template <int FRAC_BITS2> FixPoint operator * (FixPoint<FRAC_BITS2> mul) { FixPoint t = Pass(val); t.doMul64Trunc(mul); return t; }`. -/
def opMul (self : FixPoint FRAC_BITS W) (mul : FixPoint FRAC_BITS2 LONG_BITS) :
    FixPoint FRAC_BITS W :=
  doMul64Trunc (Pass self.val) mul

/-- Source (generated for `==`):
`template<class R_TYPE> bool operator == (const R_TYPE& right) { return val == FixPoint(right).val; }`
with `R_TYPE` a `FixPoint<FRAC_BITS2, T>`.  For `FRAC_BITS2 = FRAC_BITS` the C++
conversion is a plain copy; `ofFixPoint` then shifts by 0, which leaves every
value of the storage type unchanged. -/
def opEq (self : FixPoint FRAC_BITS W) (right : FixPoint FRAC_BITS2 W) : Bool :=
  decide (self.val = (ofFixPoint right : FixPoint FRAC_BITS W).val)

/-- Source:
`template <class T2> FixPoint& operator += (const T2& other) { val += FixPoint(other).val; return *this; }`
with `T2 = int`, so that `FixPoint(other)` is the constructor `FixPoint(int src)`. -/
def opAddAssignInt (self : FixPoint FRAC_BITS W) (other : Int) : FixPoint FRAC_BITS W :=
  ⟨wrap W (self.val + (ofInt other : FixPoint FRAC_BITS W).val)⟩

/-- Source:
`template <class T2> FixPoint& operator -= (const T2& other) { val -= FixPoint(other).val; return *this; }`
with `T2 = int`. -/
def opSubAssignInt (self : FixPoint FRAC_BITS W) (other : Int) : FixPoint FRAC_BITS W :=
  ⟨wrap W (self.val - (ofInt other : FixPoint FRAC_BITS W).val)⟩

/-- Source: `operator +=` as above with `T2 = T`, so that `FixPoint(other)` is the
constructor `FixPoint(T src)`. -/
def opAddAssignT (self : FixPoint FRAC_BITS W) (other : Int) : FixPoint FRAC_BITS W :=
  ⟨wrap W (self.val + (ofT other : FixPoint FRAC_BITS W).val)⟩

/-- Source: `operator -=` as above with `T2 = T`. -/
def opSubAssignT (self : FixPoint FRAC_BITS W) (other : Int) : FixPoint FRAC_BITS W :=
  ⟨wrap W (self.val - (ofT other : FixPoint FRAC_BITS W).val)⟩

/-- Source: `operator +=` as above with `T2` a `FixPoint<FRAC_BITS2, T>`, so that
`FixPoint(other)` is the converting constructor. -/
def opAddAssign (self : FixPoint FRAC_BITS W) (other : FixPoint FRAC_BITS2 W) :
    FixPoint FRAC_BITS W :=
  ⟨wrap W (self.val + (ofFixPoint other : FixPoint FRAC_BITS W).val)⟩

/-- Source: `operator -=` as above with `T2` a `FixPoint<FRAC_BITS2, T>`. -/
def opSubAssign (self : FixPoint FRAC_BITS W) (other : FixPoint FRAC_BITS2 W) :
    FixPoint FRAC_BITS W :=
  ⟨wrap W (self.val - (ofFixPoint other : FixPoint FRAC_BITS W).val)⟩

/-- Source: `void doRound() { val = (val + FracTopBit()) & ~FracMask(); }`.
`&` and `~` on a signed integer are the two's-complement operations
`Int.land` and `Int.not`. -/
def doRound (self : FixPoint FRAC_BITS W) : FixPoint FRAC_BITS W :=
  ⟨Int.land (wrap W (self.val + FracTopBit FRAC_BITS W)) (Int.not (FracMask FRAC_BITS W))⟩

/-- Source: `void doCeil() { val = (val + FracMask()) & ~FracMask(); }`. -/
def doCeil (self : FixPoint FRAC_BITS W) : FixPoint FRAC_BITS W :=
  ⟨Int.land (wrap W (self.val + FracMask FRAC_BITS W)) (Int.not (FracMask FRAC_BITS W))⟩

/-- Source: `void doFloor() { val = val & ~FracMask(); }`. -/
def doFloor (self : FixPoint FRAC_BITS W) : FixPoint FRAC_BITS W :=
  ⟨Int.land self.val (Int.not (FracMask FRAC_BITS W))⟩

/-- Source:
`template <int FRAC_BITS2> void setClosest(FixPoint<FRAC_BITS2, T> src)`
`{ val = shiftUp(src.val + shiftUp(1, FRAC_BITS2-FRAC_BITS-1), FRAC_BITS-FRAC_BITS2); }`. -/
def setClosest (_self : FixPoint FRAC_BITS W) (src : FixPoint FRAC_BITS2 W) :
    FixPoint FRAC_BITS W :=
  ⟨shiftUp W
    (wrap W (src.val + shiftUp W 1 ((FRAC_BITS2 : Int) - (FRAC_BITS : Int) - 1)))
    ((FRAC_BITS : Int) - (FRAC_BITS2 : Int))⟩

/-- Source: `template <class T2> void set(T2 src) { setTrunc(src); }` with `T2` a
`FixPoint<FRAC_BITS2, T>`. -/
def set (self : FixPoint FRAC_BITS W) (src : FixPoint FRAC_BITS2 W) : FixPoint FRAC_BITS W :=
  setTrunc self src

/-- Source:
`template <int FRAC_BITS2> void setClosestHigher(FixPoint<FRAC_BITS2, T> src)`
`{ if(FRAC_BITS2 > FRAC_BITS) val = shiftUp(src.val + shiftUp(1, FRAC_BITS2-FRAC_BITS) - 1, FRAC_BITS-FRAC_BITS2); else set(src); }`. -/
def setClosestHigher (self : FixPoint FRAC_BITS W) (src : FixPoint FRAC_BITS2 W) :
    FixPoint FRAC_BITS W :=
  if FRAC_BITS2 > FRAC_BITS then
    ⟨shiftUp W
      (wrap W (wrap W (src.val + shiftUp W 1 ((FRAC_BITS2 : Int) - (FRAC_BITS : Int))) - 1))
      ((FRAC_BITS : Int) - (FRAC_BITS2 : Int))⟩
  else set self src

/-- Source: `T getFracRaw() const { return val & FracMask(); }`. -/
def getFracRaw (self : FixPoint FRAC_BITS W) : Int :=
  Int.land self.val (FracMask FRAC_BITS W)

/-- Source: `FixPoint getFrac() const { return Pass(getFracRaw()); }`. -/
def getFrac (self : FixPoint FRAC_BITS W) : FixPoint FRAC_BITS W :=
  Pass (getFracRaw self)

/-- Source:
`template <class T2> FixPoint operator + (T2 other) const { return Pass(val + FixPoint(other).val); }`
with `T2` a `FixPoint<FRAC_BITS2, T>`. -/
def opAdd (self : FixPoint FRAC_BITS W) (other : FixPoint FRAC_BITS2 W) : FixPoint FRAC_BITS W :=
  Pass (wrap W (self.val + (ofFixPoint other : FixPoint FRAC_BITS W).val))

/-- Source:
`template <class T2> FixPoint operator - (T2 other) const { return Pass(val - FixPoint(other).val); }`
with `T2` a `FixPoint<FRAC_BITS2, T>`. -/
def opSub (self : FixPoint FRAC_BITS W) (other : FixPoint FRAC_BITS2 W) : FixPoint FRAC_BITS W :=
  Pass (wrap W (self.val - (ofFixPoint other : FixPoint FRAC_BITS W).val))

/-- Source: `operator +` as above with `T2 = int`: `FixPoint(other)` is `FixPoint(int src)`. -/
def opAddInt (self : FixPoint FRAC_BITS W) (other : Int) : FixPoint FRAC_BITS W :=
  Pass (wrap W (self.val + (ofInt other : FixPoint FRAC_BITS W).val))

/-- Source: `operator +` as above with `T2 = T`: `FixPoint(other)` is `FixPoint(T src)`. -/
def opAddT (self : FixPoint FRAC_BITS W) (other : Int) : FixPoint FRAC_BITS W :=
  Pass (wrap W (self.val + (ofT other : FixPoint FRAC_BITS W).val))

/-- Source (generated for `*` and `int`):
`FixPoint operator * (int other) { return Pass(val * other); }`; the `int` is
converted to `T` for the multiplication. -/
def opMulInt (self : FixPoint FRAC_BITS W) (other : Int) : FixPoint FRAC_BITS W :=
  Pass (wrap W (self.val * wrap W other))

/-- Source (generated for `*` and `T`):
`FixPoint operator * (T other) { return Pass(val * other); }`. -/
def opMulT (self : FixPoint FRAC_BITS W) (other : Int) : FixPoint FRAC_BITS W :=
  Pass (wrap W (self.val * other))

/-- Source (generated for `+` and `int`):
`template <int FRAC_BITS, class T> inline FixPoint<FRAC_BITS, T> operator + (int left, const FixPoint<FRAC_BITS, T>& right) { return right + left; }`. -/
def freeAddInt (left : Int) (right : FixPoint FRAC_BITS W) : FixPoint FRAC_BITS W :=
  opAddInt right left

/-- Source (generated for `+` and `T`): `operator + (T left, const FixPoint<FRAC_BITS, T>& right) { return right + left; }`. -/
def freeAddT (left : Int) (right : FixPoint FRAC_BITS W) : FixPoint FRAC_BITS W :=
  opAddT right left

/-- Source: `operator F() const { return (1.0f/(F)FracMult()) * (F)val; }` with
`F = float`: two conversions to `float`, a `float` division and a `float`
product.  `FracMult()` is not zero for `FRAC_BITS` below the storage width. -/
def toFloat (self : FixPoint FRAC_BITS W) : ℚ :=
  roundFloat (roundFloat (1 / roundFloat (FracMult FRAC_BITS W : ℚ)) * roundFloat (self.val : ℚ))

/-- Source: `void setTrunc(float src) { val = (T)(src * (float)FracMult()); }`. -/
def setTruncFloat (_self : FixPoint FRAC_BITS W) (src : ℚ) : FixPoint FRAC_BITS W :=
  ⟨wrap W (truncInt (roundFloat (src * roundFloat (FracMult FRAC_BITS W : ℚ))))⟩

/-- Source: `FixPoint(float src) { setTrunc(src); }`. -/
def ofFloat (src : ℚ) : FixPoint FRAC_BITS W :=
  setTruncFloat (Pass 0) src

/-- Source (generated for `*` and `int`):
`operator * (int left, const FixPoint<FRAC_BITS, T>& right) { return right * left; }`.
`right` is a reference to `const` and every member `operator *` of the struct
is declared without `const`, so none of them applies to it, and the free
templates do not match an `int` on the right.  What remains is the built-in
`float * int`: `right` converts through `operator F()`, `left` converts to
`float`, and the `float` product is converted to the return type by
`FixPoint(float)`. -/
def freeMulInt (left : Int) (right : FixPoint FRAC_BITS W) : FixPoint FRAC_BITS W :=
  ofFloat (roundFloat (toFloat right * roundFloat (left : ℚ)))

/-- Source (generated for `*` and `T`):
`operator * (T left, const FixPoint<FRAC_BITS, T>& right) { return right * left; }`:
as for `int`, the built-in `float * T` product. -/
def freeMulT (left : Int) (right : FixPoint FRAC_BITS W) : FixPoint FRAC_BITS W :=
  ofFloat (roundFloat (toFloat right * roundFloat (left : ℚ)))

/-- Source (generated for `-` and `int`):
`operator - (int left, const FixPoint<FRAC_BITS, T>& right) { return FixPoint<FRAC_BITS, T>(left) - right; }`. -/
def freeSubInt (left : Int) (right : FixPoint FRAC_BITS W) : FixPoint FRAC_BITS W :=
  opSub (ofInt left : FixPoint FRAC_BITS W) right

/-- Source (generated for `-` and `T`). -/
def freeSubT (left : Int) (right : FixPoint FRAC_BITS W) : FixPoint FRAC_BITS W :=
  opSub (ofT left : FixPoint FRAC_BITS W) right

/-- Source (generated for `/` and `int`):
`operator / (int left, const FixPoint<FRAC_BITS, T>& right) { return FixPoint<FRAC_BITS, T>(left) / right; }`;
`operator /` takes a divisor with the default storage type `long`. -/
def freeDivInt (left : Int) (right : FixPoint FRAC_BITS LONG_BITS) :
    FixPoint FRAC_BITS LONG_BITS :=
  opDiv (ofInt left : FixPoint FRAC_BITS LONG_BITS) right

/-- Source (generated for `/` and `T`). -/
def freeDivT (left : Int) (right : FixPoint FRAC_BITS LONG_BITS) :
    FixPoint FRAC_BITS LONG_BITS :=
  opDiv (ofT left : FixPoint FRAC_BITS LONG_BITS) right

end FixPoint

/-! ## Machine-integer lemmas -/

theorem two_pow_pred_add (w : Nat) (hw : 0 < w) :
    (2 : Int) ^ w = 2 ^ (w - 1) + 2 ^ (w - 1) := by
  obtain ⟨k, rfl⟩ : ∃ k, w = k + 1 := ⟨w - 1, by omega⟩
  simp only [Nat.add_sub_cancel, pow_succ]
  ring

theorem wrap_eq_self (w : Nat) (x : Int) (hw : 0 < w) (h : inRange w x) : wrap w x = x := by
  unfold wrap
  have h2 := two_pow_pred_add w hw
  obtain ⟨h0, h1⟩ := h
  rw [Int.emod_eq_of_lt (by omega) (by omega)]
  omega

theorem wrap_inRange (w : Nat) (x : Int) (hw : 0 < w) : inRange w (wrap w x) := by
  unfold wrap inRange
  have h2 := two_pow_pred_add w hw
  have hpos : (0 : Int) < 2 ^ w := by positivity
  have h0 := Int.emod_nonneg (x + 2 ^ (w - 1)) (ne_of_gt hpos)
  have h1 := Int.emod_lt_of_pos (x + 2 ^ (w - 1)) hpos
  constructor <;> omega

theorem wrap_modEq (w : Nat) (a : Int) : wrap w a ≡ a [ZMOD 2 ^ w] := by
  unfold wrap
  have h : (a + 2 ^ (w - 1)) % 2 ^ w ≡ a + 2 ^ (w - 1) [ZMOD 2 ^ w] := Int.mod_modEq _ _
  have h' := h.sub_right (2 ^ (w - 1))
  simpa using h'

theorem wrap_congr (w : Nat) (a b : Int) (h : a ≡ b [ZMOD 2 ^ w]) : wrap w a = wrap w b := by
  unfold wrap
  have h' : (a + 2 ^ (w - 1)) % 2 ^ w = (b + 2 ^ (w - 1)) % 2 ^ w := h.add_right _
  rw [h']

theorem wrap_add_wrap (w : Nat) (a b : Int) : wrap w (wrap w a + b) = wrap w (a + b) :=
  wrap_congr w _ _ ((wrap_modEq w a).add_right b)

theorem wrap_wrap_mul (w : Nat) (a b : Int) : wrap w (wrap w a * b) = wrap w (a * b) :=
  wrap_congr w _ _ ((wrap_modEq w a).mul_right b)

theorem sar_eq_ediv (x : Int) (s : Nat) : sar x s = x / 2 ^ s := by
  unfold sar
  rw [Int.shiftRight_eq_div_pow]
  norm_cast

theorem inRange_mono (w w' : Nat) (x : Int) (h : w ≤ w') (hx : inRange w x) : inRange w' x := by
  unfold inRange at *
  have : (2 : Int) ^ (w - 1) ≤ 2 ^ (w' - 1) :=
    pow_le_pow_right₀ (by norm_num) (by omega)
  constructor <;> omega

theorem two_pow_inRange (w f : Nat) (h : f + 1 < w) : inRange w (2 ^ f) := by
  unfold inRange
  have h1 : (2 : Int) ^ f < 2 ^ (w - 1) := pow_lt_pow_right₀ (by norm_num) (by omega)
  have h2 : (0 : Int) < 2 ^ f := by positivity
  constructor <;> omega

theorem inRange32_iff (x : Int) :
    inRange LONG_BITS x ↔ -2147483648 ≤ x ∧ x < 2147483648 := by
  unfold inRange
  norm_num

theorem inRange64_iff (x : Int) :
    inRange LLONG_BITS x ↔ -9223372036854775808 ≤ x ∧ x < 9223372036854775808 := by
  unfold inRange
  norm_num

/-- The product of a `long` and a factor of magnitude at most `2^31` fits `long long`. -/
theorem mul_inRange64 (a p : Int) (ha : inRange LONG_BITS a)
    (hp : -2147483648 ≤ p ∧ p ≤ 2147483648) : inRange LLONG_BITS (a * p) := by
  rw [inRange32_iff] at ha
  rw [inRange64_iff]
  obtain ⟨h1, h2⟩ := ha
  obtain ⟨h3, h4⟩ := hp
  constructor
  · nlinarith [mul_nonneg (sub_nonneg.mpr h1) (sub_nonneg.mpr h4),
      mul_nonneg (sub_nonneg.mpr (le_of_lt h2)) (sub_nonneg.mpr h3)]
  · nlinarith [mul_nonneg (sub_nonneg.mpr h1) (sub_nonneg.mpr h3),
      mul_nonneg (sub_nonneg.mpr (le_of_lt h2)) (sub_nonneg.mpr h4)]

theorem two_pow_le_long (f : Nat) (h : f < LONG_BITS) :
    -2147483648 ≤ (2 : Int) ^ f ∧ (2 : Int) ^ f ≤ 2147483648 := by
  have h1 : (2 : Int) ^ f ≤ 2 ^ 31 := pow_le_pow_right₀ (by norm_num) (by unfold LONG_BITS at h; omega)
  have h2 : (0 : Int) < 2 ^ f := by positivity
  norm_num at h1
  constructor <;> omega

theorem tmod_neg_left (a b : Int) : (-a).tmod b = -(a.tmod b) := by
  rw [Int.tmod_def, Int.tmod_def, Int.neg_tdiv]
  ring

/-- The remainder of the truncating division has the sign of the dividend and
a magnitude below that of the divisor. -/
theorem tmod_sign_bounds (n d : Int) (hd : d ≠ 0) :
    (0 ≤ n → 0 ≤ n.tmod d ∧ n.tmod d < |d|) ∧ (n ≤ 0 → n.tmod d ≤ 0 ∧ -|d| < n.tmod d) := by
  have key : ∀ m : Int, 0 ≤ m → 0 ≤ m.tmod d ∧ m.tmod d < |d| := by
    intro m hm
    refine ⟨Int.tmod_nonneg d hm, ?_⟩
    rcases lt_or_gt_of_ne hd with h | h
    · rw [abs_of_neg h, ← Int.tmod_neg]
      exact Int.tmod_lt_of_pos m (by omega)
    · rw [abs_of_pos h]
      exact Int.tmod_lt_of_pos m h
  refine ⟨key n, fun hn => ?_⟩
  have h := key (-n) (by omega)
  rw [tmod_neg_left] at h
  constructor <;> omega

theorem rat_floor_div (n P : Int) (hP : 0 < P) : ⌊(n : ℚ) / (P : ℚ)⌋ = n / P := by
  have hPq : (0 : ℚ) < (P : ℚ) := by exact_mod_cast hP
  rw [Int.floor_eq_iff]
  have h1 : n / P * P ≤ n := Int.ediv_mul_le n (ne_of_gt hP)
  have h2 : n < (n / P + 1) * P := Int.lt_ediv_add_one_mul_self n hP
  constructor
  · rw [le_div_iff₀ hPq]
    exact_mod_cast h1
  · rw [div_lt_iff₀ hPq]
    exact_mod_cast h2

theorem rat_ceil_div (n P : Int) (hP : 0 < P) : ⌈(n : ℚ) / (P : ℚ)⌉ = (n + P - 1) / P := by
  have hPq : (0 : ℚ) < (P : ℚ) := by exact_mod_cast hP
  rw [Int.ceil_eq_iff]
  have h1 : (n + P - 1) / P * P ≤ n + P - 1 := Int.ediv_mul_le _ (ne_of_gt hP)
  have h2 : n + P - 1 < ((n + P - 1) / P + 1) * P := Int.lt_ediv_add_one_mul_self _ hP
  constructor
  · rw [lt_div_iff₀ hPq]
    have : ((n + P - 1) / P - 1) * P < n := by nlinarith
    exact_mod_cast this
  · rw [div_le_iff₀ hPq]
    have : n ≤ (n + P - 1) / P * P := by nlinarith
    exact_mod_cast this

/-- The integer nearest to a rational, preferring the upper neighbour on a tie,
is `⌊v + 1/2⌋`. -/
theorem rat_round_nearer (v : ℚ) :
    if v - ⌊v⌋ < ⌈v⌉ - v then ⌊v + 1 / 2⌋ = ⌊v⌋ else ⌊v + 1 / 2⌋ = ⌈v⌉ := by
  have h1 := Int.floor_le v
  have h2 := Int.lt_floor_add_one v
  have h3 := Int.le_ceil v
  have h4 := Int.ceil_lt_add_one v
  have h5 : (⌈v⌉ : ℚ) ≤ ⌊v⌋ + 1 := by exact_mod_cast Int.ceil_le_floor_add_one v
  split_ifs with h
  · rw [Int.floor_eq_iff]
    constructor <;> linarith
  · rw [Int.floor_eq_iff]
    rcases eq_or_lt_of_le (Int.floor_le_ceil v) with he | hlt
    · have he' : (⌈v⌉ : ℚ) = ⌊v⌋ := by rw [he]
      constructor <;> linarith
    · have h6 : (⌊v⌋ : ℚ) + 1 ≤ ⌈v⌉ := by exact_mod_cast hlt
      constructor <;> linarith

namespace FixPoint

theorem FracMask_eq (FRAC_BITS W : Nat) (h : FRAC_BITS < W) :
    FracMask FRAC_BITS W = 2 ^ FRAC_BITS - 1 := by
  unfold FracMask FracMult shl
  rw [sub_eq_add_neg, wrap_add_wrap, one_mul]
  apply wrap_eq_self W _ (by omega)
  unfold inRange
  have h1 : (2 : Int) ^ FRAC_BITS ≤ 2 ^ (W - 1) := pow_le_pow_right₀ (by norm_num) (by omega)
  have h2 : (0 : Int) < 2 ^ FRAC_BITS := by positivity
  constructor <;> omega

theorem FracTopBit_eq (FRAC_BITS W : Nat) (h1 : 1 ≤ FRAC_BITS) (h : FRAC_BITS < W) :
    FracTopBit FRAC_BITS W = 2 ^ (FRAC_BITS - 1) := by
  unfold FracTopBit shl
  rw [one_mul]
  exact wrap_eq_self W _ (by omega) (two_pow_inRange W _ (by omega))

theorem getFloor_eq (x : FixPoint FRAC_BITS W) : x.getFloor = x.val / 2 ^ FRAC_BITS := by
  unfold getFloor
  exact sar_eq_ediv _ _

theorem getCeil_eq (x : FixPoint FRAC_BITS W) (hW : FRAC_BITS < W)
    (hno : inRange W (x.val + FracMask FRAC_BITS W)) :
    x.getCeil = (x.val + 2 ^ FRAC_BITS - 1) / 2 ^ FRAC_BITS := by
  unfold getCeil
  rw [wrap_eq_self W _ (by omega) hno, sar_eq_ediv, FracMask_eq _ _ hW]
  congr 1
  ring

theorem getRound_eq (x : FixPoint FRAC_BITS W) (hF : 1 ≤ FRAC_BITS) (hW : FRAC_BITS < W)
    (hno : inRange W (x.val + FracTopBit FRAC_BITS W)) :
    x.getRound = (x.val + 2 ^ (FRAC_BITS - 1)) / 2 ^ FRAC_BITS := by
  unfold getRound
  rw [wrap_eq_self W _ (by omega) hno, sar_eq_ediv, FracTopBit_eq _ _ hF hW]

/-- When adding `FracMask()` does not overflow, adding `FracTopBit()` does not either. -/
theorem inRange_add_FracTopBit (x : FixPoint FRAC_BITS W) (hF : 1 ≤ FRAC_BITS)
    (hW : FRAC_BITS < W) (hval : inRange W x.val)
    (hno : inRange W (x.val + FracMask FRAC_BITS W)) :
    inRange W (x.val + FracTopBit FRAC_BITS W) := by
  rw [FracMask_eq _ _ hW] at hno
  rw [FracTopBit_eq _ _ hF hW]
  unfold inRange at *
  have h2 := two_pow_pred_add FRAC_BITS (by omega)
  have h3 : (0 : Int) < 2 ^ (FRAC_BITS - 1) := by positivity
  constructor <;> omega

/-- **C1.** For `1 ≤ FRAC_BITS` (below the storage width, as every shift by
`FRAC_BITS` requires) and every raw value `val` of the storage type for which
`val + FracMask()` does not overflow, with `v = val / 2^FRAC_BITS` as a
rational: `getFloor()` is `⌊v⌋`, `getCeil()` is `⌈v⌉`, so that
`getFloor() ≤ v ≤ getCeil()`, and `getRound()` is `⌊v + 1/2⌋`, which is the
nearer of `getFloor()` and `getCeil()` with `getCeil()` taken on a tie;
negative `val` included.  At `FRAC_BITS = 8`, `val = 384` the three results
are 2, 1 and 2. -/
theorem C1_floor_ceil_round (FRAC_BITS W : Nat) (x : FixPoint FRAC_BITS W)
    (hF : 1 ≤ FRAC_BITS) (hW : FRAC_BITS < W) (hval : inRange W x.val)
    (hno : inRange W (x.val + FracMask FRAC_BITS W)) :
    x.getFloor = ⌊(x.val : ℚ) / 2 ^ FRAC_BITS⌋ ∧
    x.getCeil = ⌈(x.val : ℚ) / 2 ^ FRAC_BITS⌉ ∧
    ((x.getFloor : ℚ) ≤ (x.val : ℚ) / 2 ^ FRAC_BITS ∧
      (x.val : ℚ) / 2 ^ FRAC_BITS ≤ (x.getCeil : ℚ)) ∧
    x.getRound = ⌊(x.val : ℚ) / 2 ^ FRAC_BITS + 1 / 2⌋ ∧
    (if (x.val : ℚ) / 2 ^ FRAC_BITS - x.getFloor < x.getCeil - (x.val : ℚ) / 2 ^ FRAC_BITS
      then x.getRound = x.getFloor else x.getRound = x.getCeil) ∧
    ((Pass 384 : FixPoint 8 32).getRound = 2 ∧ (Pass 384 : FixPoint 8 32).getFloor = 1 ∧
      (Pass 384 : FixPoint 8 32).getCeil = 2) := by
  have hP : (0 : Int) < 2 ^ FRAC_BITS := by positivity
  have hcast : ((2 : ℚ) ^ FRAC_BITS) = (((2 : Int) ^ FRAC_BITS : Int) : ℚ) := by push_cast; rfl
  have hfl : x.getFloor = ⌊(x.val : ℚ) / 2 ^ FRAC_BITS⌋ := by
    rw [getFloor_eq, hcast, rat_floor_div _ _ hP]
  have hce : x.getCeil = ⌈(x.val : ℚ) / 2 ^ FRAC_BITS⌉ := by
    rw [getCeil_eq x hW hno, hcast, rat_ceil_div _ _ hP]
  have hro : x.getRound = ⌊(x.val : ℚ) / 2 ^ FRAC_BITS + 1 / 2⌋ := by
    rw [getRound_eq x hF hW (inRange_add_FracTopBit x hF hW hval hno)]
    have h2 := two_pow_pred_add FRAC_BITS (by omega)
    have hq : (x.val : ℚ) / 2 ^ FRAC_BITS + 1 / 2
        = ((x.val + 2 ^ (FRAC_BITS - 1) : Int) : ℚ) / (((2 : Int) ^ FRAC_BITS : Int) : ℚ) := by
      have h2q : ((2 : ℚ) ^ FRAC_BITS) = 2 ^ (FRAC_BITS - 1) + 2 ^ (FRAC_BITS - 1) := by
        exact_mod_cast h2
      have hpos : (0 : ℚ) < 2 ^ (FRAC_BITS - 1) := by positivity
      push_cast
      rw [h2q]
      field_simp
      ring
    rw [hq, rat_floor_div _ _ hP]
  refine ⟨hfl, hce, ⟨?_, ?_⟩, hro, ?_, by decide⟩
  · rw [hfl]; exact Int.floor_le _
  · rw [hce]; exact Int.le_ceil _
  · rw [hfl, hce, hro]
    exact rat_round_nearer _

/-- Witness for C1 at a negative tie: `FRAC_BITS = 8`, 32-bit storage,
`val = -384` (the value -1.5). -/
theorem C1_floor_ceil_round_witness :
    (1 ≤ 8 ∧ 8 < 32 ∧ inRange 32 (-384) ∧ inRange 32 (-384 + FracMask 8 32)) ∧
    (Pass (-384) : FixPoint 8 32).getRound = ⌊((-384 : Int) : ℚ) / 2 ^ 8 + 1 / 2⌋ ∧
    (Pass (-384) : FixPoint 8 32).getRound = -1 :=
  ⟨by decide,
   (C1_floor_ceil_round 8 32 (Pass (-384)) (by decide) (by decide) (by decide)
      (by decide)).2.2.2.1,
   by decide⟩

/-- If `N * 2^f + 2^(f-1)` is a storage value then so are `N * 2^f` and `N`. -/
theorem inRange_of_scaled (f W : Nat) (N : Int) (hF : 1 ≤ f) (hW : f < W)
    (hfit : inRange W (N * 2 ^ f + 2 ^ (f - 1))) :
    inRange W (N * 2 ^ f) ∧ inRange W N := by
  unfold inRange at *
  obtain ⟨hlo, hhi⟩ := hfit
  have hH : (0 : Int) < 2 ^ (f - 1) := by positivity
  have hP := two_pow_pred_add f (by omega)
  have hK : (2 : Int) ^ (W - 1) = 2 ^ f * 2 ^ (W - 1 - f) := by
    rw [← pow_add]
    congr 1
    omega
  have hKpos : (0 : Int) < 2 ^ (W - 1 - f) := by positivity
  have hN : -(2 ^ (W - 1 - f)) ≤ N := by
    by_contra hcon
    push_neg at hcon
    have : N + 1 ≤ -(2 ^ (W - 1 - f)) := by omega
    nlinarith
  have hN' : N < 2 ^ (W - 1 - f) := by
    by_contra hcon
    push_neg at hcon
    nlinarith
  have hPpos : (0 : Int) < 2 ^ f := by positivity
  have hP1 : (1 : Int) ≤ 2 ^ f := by omega
  refine ⟨⟨by nlinarith, by nlinarith⟩, ⟨by nlinarith, by nlinarith⟩⟩

/-- **C2.** For `1 ≤ FRAC_BITS` (below the storage width) and every integer `N`
such that `N * 2^FRAC_BITS + 2^(FRAC_BITS-1)` fits the storage type, the
FixPoint constructed from `N`, through `FixPoint(int)` or `FixPoint(T)`, has
`val = N * 2^FRAC_BITS`, `getFloor() == N` and `getRound() == N`. -/
theorem C2_fromInteger_floor_round (FRAC_BITS W : Nat) (N : Int)
    (hF : 1 ≤ FRAC_BITS) (hW : FRAC_BITS < W)
    (hfit : inRange W (N * 2 ^ FRAC_BITS + 2 ^ (FRAC_BITS - 1))) :
    ((ofInt N : FixPoint FRAC_BITS W).val = N * 2 ^ FRAC_BITS ∧
      (ofInt N : FixPoint FRAC_BITS W).getFloor = N ∧
      (ofInt N : FixPoint FRAC_BITS W).getRound = N) ∧
    ((ofT N : FixPoint FRAC_BITS W).val = N * 2 ^ FRAC_BITS ∧
      (ofT N : FixPoint FRAC_BITS W).getFloor = N ∧
      (ofT N : FixPoint FRAC_BITS W).getRound = N) := by
  obtain ⟨hs, hN⟩ := inRange_of_scaled FRAC_BITS W N hF hW hfit
  have hP : (0 : Int) < 2 ^ FRAC_BITS := by positivity
  have hH : (0 : Int) < 2 ^ (FRAC_BITS - 1) := by positivity
  have h2 := two_pow_pred_add FRAC_BITS (by omega)
  have hT : (ofT N : FixPoint FRAC_BITS W).val = N * 2 ^ FRAC_BITS := by
    show shl W N FRAC_BITS = _
    unfold shl
    exact wrap_eq_self W _ (by omega) hs
  have hI : (ofInt N : FixPoint FRAC_BITS W) = ofT N := by
    unfold ofInt ofT
    rw [wrap_eq_self W N (by omega) hN]
  have hfl : (ofT N : FixPoint FRAC_BITS W).getFloor = N := by
    rw [getFloor_eq, hT]
    exact Int.mul_ediv_cancel N (ne_of_gt hP)
  have hro : (ofT N : FixPoint FRAC_BITS W).getRound = N := by
    rw [getRound_eq _ hF hW (by rw [hT, FracTopBit_eq _ _ hF hW]; exact hfit), hT]
    rw [add_comm, Int.add_mul_ediv_right _ _ (ne_of_gt hP),
      Int.ediv_eq_zero_of_lt (le_of_lt hH) (by omega)]
    simp
  rw [hI]
  exact ⟨⟨hT, hfl, hro⟩, ⟨hT, hfl, hro⟩⟩

/-- Witness for C2: `FRAC_BITS = 8`, 32-bit storage, `N = -3`. -/
theorem C2_fromInteger_floor_round_witness :
    (1 ≤ 8 ∧ 8 < 32 ∧ inRange 32 ((-3) * 2 ^ 8 + 2 ^ (8 - 1))) ∧
    (ofInt (-3) : FixPoint 8 32).getFloor = -3 ∧
    (ofInt (-3) : FixPoint 8 32).getRound = -3 :=
  ⟨by decide,
   (C2_fromInteger_floor_round 8 32 (-3) (by decide) (by decide) (by decide)).1.2⟩

/-- The raw value of a 32-bit product under the truncating widened multiply,
in exact arithmetic. -/
theorem doMul64Trunc_val (a : FixPoint FRAC_BITS LONG_BITS) (m : FixPoint FRAC_BITS2 LONG_BITS)
    (ha : inRange LONG_BITS a.val) (hm : inRange LONG_BITS m.val) :
    (doMul64Trunc a m).val = wrap LONG_BITS (a.val * m.val / 2 ^ FRAC_BITS2) := by
  unfold doMul64Trunc
  have hm' : -2147483648 ≤ m.val ∧ m.val ≤ 2147483648 := by
    rw [inRange32_iff] at hm
    constructor <;> omega
  rw [wrap_eq_self _ _ (by norm_num) (inRange_mono _ _ _ (by norm_num) ha),
    wrap_eq_self _ _ (by norm_num) (inRange_mono _ _ _ (by norm_num) hm),
    wrap_eq_self _ _ (by norm_num) (mul_inRange64 _ _ ha hm'), sar_eq_ediv]

/-- The raw value of a 32-bit quotient under the truncating widened divide,
in exact arithmetic. -/
theorem doDiv64Trunc_val (a : FixPoint FRAC_BITS LONG_BITS) (d : FixPoint FRAC_BITS2 LONG_BITS)
    (ha : inRange LONG_BITS a.val) (hF2 : FRAC_BITS2 < LONG_BITS) :
    (doDiv64Trunc a d).val = wrap LONG_BITS ((a.val * 2 ^ FRAC_BITS2).tdiv d.val) := by
  unfold doDiv64Trunc shl
  rw [wrap_eq_self _ _ (by norm_num) (inRange_mono _ _ _ (by norm_num) ha),
    wrap_eq_self _ _ (by norm_num) (mul_inRange64 _ _ ha (two_pow_le_long _ hF2))]

/-- The FixPoint constructed from the integer 1, when 1 is representable. -/
theorem ofInt_one_val (FRAC_BITS2 : Nat) (h1 : inRange LONG_BITS (1 * 2 ^ FRAC_BITS2)) :
    (ofInt 1 : FixPoint FRAC_BITS2 LONG_BITS).val = 2 ^ FRAC_BITS2 := by
  unfold ofInt shl
  rw [wrap_eq_self _ 1 (by norm_num) (by decide), wrap_eq_self _ _ (by norm_num) h1, one_mul]

/-- **C3.** Multiplicative identity: for every 32-bit FixPoint `a` (any raw
value of the storage type, negative ones included) and every `FRAC_BITS2` for
which the integer 1 is representable, with `one` the `FixPoint<FRAC_BITS2>`
constructed from the integer 1, the truncating widened multiply `a * one`
(`operator*`, that is `doMul64Trunc`) has raw value `a.val`, and `a * one == a`
evaluates true. -/
theorem C3_mul_one (FRAC_BITS FRAC_BITS2 : Nat) (a : FixPoint FRAC_BITS LONG_BITS)
    (ha : inRange LONG_BITS a.val) (h1 : inRange LONG_BITS (1 * 2 ^ FRAC_BITS2)) :
    (opMul a (ofInt 1 : FixPoint FRAC_BITS2 LONG_BITS)).val = a.val ∧
    (doMul64Trunc a (ofInt 1 : FixPoint FRAC_BITS2 LONG_BITS)).val = a.val ∧
    opEq (opMul a (ofInt 1 : FixPoint FRAC_BITS2 LONG_BITS)) a = true := by
  have hone := ofInt_one_val FRAC_BITS2 h1
  have hP : (0 : Int) < 2 ^ FRAC_BITS2 := by positivity
  have hmul : (doMul64Trunc a (ofInt 1 : FixPoint FRAC_BITS2 LONG_BITS)).val = a.val := by
    rw [doMul64Trunc_val a _ ha (by rw [hone]; simpa using h1), hone,
      Int.mul_ediv_cancel _ (ne_of_gt hP), wrap_eq_self _ _ (by norm_num) ha]
  have hop : (opMul a (ofInt 1 : FixPoint FRAC_BITS2 LONG_BITS)).val = a.val := hmul
  refine ⟨hop, hmul, ?_⟩
  unfold opEq ofFixPoint setTrunc shiftUp shl
  simp only [sub_self, lt_self_iff_false, if_false, Int.toNat_zero, pow_zero, mul_one,
    decide_eq_true_eq]
  rw [wrap_eq_self _ _ (by norm_num) ha]
  exact hop

/-- Witness for C3: a negative raw value, `FRAC_BITS = 8`, `FRAC_BITS2 = 30`
(the largest count for which 1 is representable in 32 bits). -/
theorem C3_mul_one_witness :
    (inRange LONG_BITS (-2147483648) ∧ inRange LONG_BITS (1 * 2 ^ 30)) ∧
    (opMul (Pass (-2147483648) : FixPoint 8 LONG_BITS)
      (ofInt 1 : FixPoint 30 LONG_BITS)).val = -2147483648 :=
  ⟨by decide, (C3_mul_one 8 30 (Pass (-2147483648)) (by decide) (by decide)).1⟩

theorem opDiv_val (a : FixPoint FRAC_BITS W) (d : FixPoint FRAC_BITS2 LONG_BITS) :
    (opDiv a d).val = (doDiv64Trunc a d).val := rfl

theorem opMul_val (a : FixPoint FRAC_BITS W) (m : FixPoint FRAC_BITS2 LONG_BITS) :
    (opMul a m).val = (doMul64Trunc a m).val := rfl

/-- Exact-arithmetic form of `(a / d) * d` on 32-bit operands of equal precision
when the quotient fits: `a.val + ⌊-r / 2^FRAC_BITS⌋` with `r` the remainder of
the truncating division, provided that sum fits. -/
theorem div_mul_val (a d : FixPoint FRAC_BITS LONG_BITS) (hF : FRAC_BITS < LONG_BITS)
    (ha : inRange LONG_BITS a.val) (hd : inRange LONG_BITS d.val)
    (hq : inRange LONG_BITS ((a.val * 2 ^ FRAC_BITS).tdiv d.val)) :
    (opMul (opDiv a d) d).val =
      wrap LONG_BITS (a.val + -((a.val * 2 ^ FRAC_BITS).tmod d.val) / 2 ^ FRAC_BITS) := by
  have hP : (0 : Int) < 2 ^ FRAC_BITS := by positivity
  have hdiv : (opDiv a d).val = (a.val * 2 ^ FRAC_BITS).tdiv d.val := by
    rw [opDiv_val, doDiv64Trunc_val a d ha hF, wrap_eq_self _ _ (by norm_num) hq]
  rw [opMul_val, doMul64Trunc_val _ d (by rw [hdiv]; exact hq) hd, hdiv]
  have hrq := Int.tmod_add_tdiv (a.val * 2 ^ FRAC_BITS) d.val
  have hprod : (a.val * 2 ^ FRAC_BITS).tdiv d.val * d.val
      = -((a.val * 2 ^ FRAC_BITS).tmod d.val) + a.val * 2 ^ FRAC_BITS := by
    linarith
  rw [hprod, Int.add_mul_ediv_right _ _ (ne_of_gt hP), add_comm]

/-- Bonus bound behind C4, for every divisor: the error of `(a / d) * d` in raw
units, scaled by `2^FRAC_BITS`, is below `|d.val| + 2^FRAC_BITS`. -/
theorem div_mul_error (a d : FixPoint FRAC_BITS LONG_BITS) (hF : FRAC_BITS < LONG_BITS)
    (ha : inRange LONG_BITS a.val) (hd : inRange LONG_BITS d.val) (hd0 : d.val ≠ 0)
    (hq : inRange LONG_BITS ((a.val * 2 ^ FRAC_BITS).tdiv d.val)) :
    |(opMul (opDiv a d) d).val - a.val| * 2 ^ FRAC_BITS < |d.val| + 2 ^ FRAC_BITS := by
  have hP : (0 : Int) < 2 ^ FRAC_BITS := by positivity
  have hP1 : (1 : Int) ≤ 2 ^ FRAC_BITS := by omega
  obtain ⟨hpos, hneg⟩ := tmod_sign_bounds (a.val * 2 ^ FRAC_BITS) d.val hd0
  have he1 := Int.ediv_mul_le (-((a.val * 2 ^ FRAC_BITS).tmod d.val)) (ne_of_gt hP)
  have he2 := Int.lt_ediv_add_one_mul_self (-((a.val * 2 ^ FRAC_BITS).tmod d.val)) hP
  rw [inRange32_iff] at ha hd
  have hdabs : |d.val| ≤ 2147483648 := by
    rw [abs_le]
    constructor <;> omega
  rw [div_mul_val a d hF ha hd hq]
  generalize (a.val * 2 ^ FRAC_BITS).tmod d.val = r at *
  generalize -r / 2 ^ FRAC_BITS = e at *
  rcases le_total 0 a.val with h0 | h0
  · obtain ⟨hr0, hr1⟩ := hpos (by positivity)
    have hele : e ≤ 0 := by
      by_contra hc
      push_neg at hc
      nlinarith
    have hege : -2147483648 < e := by
      by_contra hc
      push_neg at hc
      nlinarith
    rw [wrap_eq_self _ _ (by norm_num) (by rw [inRange32_iff]; constructor <;> omega)]
    rw [add_sub_cancel_left, abs_of_nonpos hele]
    nlinarith
  · obtain ⟨hr0, hr1⟩ := hneg (by nlinarith)
    have hege : 0 ≤ e := by
      by_contra hc
      push_neg at hc
      nlinarith
    have hele : e < 2147483648 := by
      by_contra hc
      push_neg at hc
      nlinarith
    rw [wrap_eq_self _ _ (by norm_num) (by rw [inRange32_iff]; constructor <;> omega)]
    rw [add_sub_cancel_left, abs_of_nonneg hege]
    nlinarith

/-- **C4 (as stated, refuted).** `FRAC_BITS = 8`, `a.val = 256` (1.0),
`d.val = 25600` (100.0): nothing overflows, `a / d` has raw value 2 and
`(a / d) * d` has raw value 200, which is 56 raw units away from `a.val`. -/
theorem C4_div_mul_counterexample :
    (Pass 25600 : FixPoint 8 LONG_BITS).val ≠ 0 ∧
    inRange LONG_BITS (Pass 256 : FixPoint 8 LONG_BITS).val ∧
    inRange LONG_BITS (Pass 25600 : FixPoint 8 LONG_BITS).val ∧
    inRange LLONG_BITS ((Pass 256 : FixPoint 8 LONG_BITS).val * 2 ^ 8) ∧
    (opDiv (Pass 256 : FixPoint 8 LONG_BITS) (Pass 25600 : FixPoint 8 LONG_BITS)).val = 2 ∧
    inRange LLONG_BITS (2 * (Pass 25600 : FixPoint 8 LONG_BITS).val) ∧
    (opMul (opDiv (Pass 256 : FixPoint 8 LONG_BITS) (Pass 25600 : FixPoint 8 LONG_BITS))
      (Pass 25600 : FixPoint 8 LONG_BITS)).val = 200 ∧
    ¬ (|(opMul (opDiv (Pass 256 : FixPoint 8 LONG_BITS) (Pass 25600 : FixPoint 8 LONG_BITS))
      (Pass 25600 : FixPoint 8 LONG_BITS)).val - (Pass 256 : FixPoint 8 LONG_BITS).val| ≤ 1) := by
  decide

/-- **C4 (amended).** For 32-bit FixPoint values `a` and `d` of the same
precision with `d.val ≠ 0` and `|d.val| ≤ 2^FRAC_BITS` (a divisor of magnitude
at most 1.0), when the quotient fits the storage type, the truncating divide
followed by the truncating multiply, `(a / d) * d`, has a raw value that
differs from `a.val` by at most 1. -/
theorem C4_div_mul_within_epsilon (FRAC_BITS : Nat) (a d : FixPoint FRAC_BITS LONG_BITS)
    (hF : FRAC_BITS < LONG_BITS)
    (ha : inRange LONG_BITS a.val) (hd : inRange LONG_BITS d.val) (hd0 : d.val ≠ 0)
    (hq : inRange LONG_BITS ((a.val * 2 ^ FRAC_BITS).tdiv d.val))
    (hsmall : |d.val| ≤ 2 ^ FRAC_BITS) :
    |(opMul (opDiv a d) d).val - a.val| ≤ 1 := by
  have h := div_mul_error a d hF ha hd hd0 hq
  have hP : (0 : Int) < 2 ^ FRAC_BITS := by positivity
  by_contra hc
  push_neg at hc
  have h2 : (2 : Int) ≤ |(opMul (opDiv a d) d).val - a.val| := by omega
  nlinarith

/-- Witness for C4 (amended): `FRAC_BITS = 8`, `a.val = 256` (1.0),
`d.val = 192` (0.75); the result is 255. -/
theorem C4_div_mul_within_epsilon_witness :
    (8 < LONG_BITS ∧ inRange LONG_BITS 256 ∧ inRange LONG_BITS 192 ∧ (192 : Int) ≠ 0 ∧
      inRange LONG_BITS (((256 : Int) * 2 ^ 8).tdiv 192) ∧ |(192 : Int)| ≤ 2 ^ 8) ∧
    |(opMul (opDiv (Pass 256 : FixPoint 8 LONG_BITS) (Pass 192 : FixPoint 8 LONG_BITS))
      (Pass 192 : FixPoint 8 LONG_BITS)).val - 256| ≤ 1 ∧
    (opMul (opDiv (Pass 256 : FixPoint 8 LONG_BITS) (Pass 192 : FixPoint 8 LONG_BITS))
      (Pass 192 : FixPoint 8 LONG_BITS)).val = 255 :=
  ⟨by decide,
   C4_div_mul_within_epsilon 8 (Pass 256) (Pass 192) (by decide) (by decide) (by decide)
     (by decide) (by decide) (by decide),
   by decide⟩

/-- **C5.** For 32-bit FixPoint values `a` and `d` of the same precision with
`d.val ≠ 0` and `a.val = k * d.val` for an integer `k`, the quotient
`k * 2^FRAC_BITS` fitting the storage type, the truncating `(a / d) * d` has
raw value exactly `a.val`. -/
theorem C5_div_mul_exact (FRAC_BITS : Nat) (a d : FixPoint FRAC_BITS LONG_BITS) (k : Int)
    (hF : FRAC_BITS < LONG_BITS)
    (ha : inRange LONG_BITS a.val) (hd : inRange LONG_BITS d.val) (hd0 : d.val ≠ 0)
    (hk : a.val = k * d.val) (hq : inRange LONG_BITS (k * 2 ^ FRAC_BITS)) :
    (opDiv a d).val = k * 2 ^ FRAC_BITS ∧ (opMul (opDiv a d) d).val = a.val := by
  have hprod : a.val * 2 ^ FRAC_BITS = k * 2 ^ FRAC_BITS * d.val := by rw [hk]; ring
  have hquot : (a.val * 2 ^ FRAC_BITS).tdiv d.val = k * 2 ^ FRAC_BITS := by
    rw [hprod, Int.mul_tdiv_cancel _ hd0]
  have hrem : (a.val * 2 ^ FRAC_BITS).tmod d.val = 0 := by
    rw [hprod, Int.mul_tmod_left]
  constructor
  · rw [opDiv_val, doDiv64Trunc_val a d ha hF, hquot, wrap_eq_self _ _ (by norm_num) hq]
  · rw [div_mul_val a d hF ha hd (by rw [hquot]; exact hq), hrem]
    simp only [neg_zero, Int.zero_ediv, add_zero]
    exact wrap_eq_self _ _ (by norm_num) ha

/-- Witness for C5: `FRAC_BITS = 8`, `d.val = -768` (-3.0), `k = 5`,
`a.val = -3840` (-15.0). -/
theorem C5_div_mul_exact_witness :
    (8 < LONG_BITS ∧ inRange LONG_BITS (-3840) ∧ inRange LONG_BITS (-768) ∧ (-768 : Int) ≠ 0 ∧
      (-3840 : Int) = 5 * (-768) ∧ inRange LONG_BITS (5 * 2 ^ 8)) ∧
    (opMul (opDiv (Pass (-3840) : FixPoint 8 LONG_BITS) (Pass (-768) : FixPoint 8 LONG_BITS))
      (Pass (-768) : FixPoint 8 LONG_BITS)).val = -3840 :=
  ⟨by decide,
   (C5_div_mul_exact 8 (Pass (-3840)) (Pass (-768)) 5 (by decide) (by decide) (by decide)
     (by decide) (by decide) (by decide)).2⟩

/-- **C6.** For every FixPoint `a` (storage of at most 64 bits) and every
divisor `d` with `FRAC_BITS2` fractional bits and `d.val ≠ 0`, when neither
the widened shift nor the narrowed quotient overflows, the truncating divide
`a / d` (`doDiv64Trunc`) has raw value `a.val * 2^FRAC_BITS2` divided by
`d.val` with truncation toward zero; when `d.val` divides
`a.val * 2^FRAC_BITS2` nothing is lost: the result times `d.val` is
`a.val * 2^FRAC_BITS2`, and the result represents the exact quotient of the
two represented values.  With `FRAC_BITS = 8`, `a` built from 7 (raw 1792) and
`b` built from 2 (raw 512), `a / b` has raw value 896. -/
theorem C6_div_trunc (FRAC_BITS FRAC_BITS2 W : Nat) (a : FixPoint FRAC_BITS W)
    (d : FixPoint FRAC_BITS2 LONG_BITS) (hW : 0 < W) (hW64 : W ≤ LLONG_BITS)
    (ha : inRange W a.val) (hd0 : d.val ≠ 0)
    (hsh : inRange LLONG_BITS (a.val * 2 ^ FRAC_BITS2))
    (hq : inRange W ((a.val * 2 ^ FRAC_BITS2).tdiv d.val)) :
    (opDiv a d).val = (a.val * 2 ^ FRAC_BITS2).tdiv d.val ∧
    (doDiv64Trunc a d).val = (a.val * 2 ^ FRAC_BITS2).tdiv d.val ∧
    (d.val ∣ a.val * 2 ^ FRAC_BITS2 →
      (opDiv a d).val * d.val = a.val * 2 ^ FRAC_BITS2 ∧
      ((opDiv a d).val : ℚ) / 2 ^ FRAC_BITS =
        ((a.val : ℚ) / 2 ^ FRAC_BITS) / ((d.val : ℚ) / 2 ^ FRAC_BITS2)) ∧
    ((ofInt 7 : FixPoint 8 LONG_BITS).val = 1792 ∧ (ofInt 2 : FixPoint 8 LONG_BITS).val = 512 ∧
      (opDiv (ofInt 7 : FixPoint 8 LONG_BITS) (ofInt 2 : FixPoint 8 LONG_BITS)).val = 896) := by
  have hval : (doDiv64Trunc a d).val = (a.val * 2 ^ FRAC_BITS2).tdiv d.val := by
    unfold doDiv64Trunc shl
    rw [wrap_eq_self _ _ (by norm_num) (inRange_mono _ _ _ hW64 ha),
      wrap_eq_self _ _ (by norm_num) hsh, wrap_eq_self _ _ hW hq]
  refine ⟨hval, hval, fun hdvd => ?_, by decide⟩
  have hmul : (opDiv a d).val * d.val = a.val * 2 ^ FRAC_BITS2 := by
    rw [opDiv_val, hval]
    exact Int.tdiv_mul_cancel hdvd
  refine ⟨hmul, ?_⟩
  have hdq : (d.val : ℚ) ≠ 0 := by exact_mod_cast hd0
  have hmulq : ((opDiv a d).val : ℚ) * (d.val : ℚ) = (a.val : ℚ) * 2 ^ FRAC_BITS2 := by
    exact_mod_cast hmul
  have hP : (2 : ℚ) ^ FRAC_BITS ≠ 0 := by positivity
  have hP2 : (2 : ℚ) ^ FRAC_BITS2 ≠ 0 := by positivity
  field_simp
  linear_combination (2 : ℚ) ^ FRAC_BITS * hmulq

/-- Witness for C6: `FRAC_BITS = 8`, `FRAC_BITS2 = 4`, `a.val = -1000`,
`d.val = 48` (3.0); the quotient -333.33 truncates toward zero to -333. -/
theorem C6_div_trunc_witness :
    (0 < LONG_BITS ∧ LONG_BITS ≤ LLONG_BITS ∧ inRange LONG_BITS (-1000) ∧ (48 : Int) ≠ 0 ∧
      inRange LLONG_BITS ((-1000) * 2 ^ 4) ∧ inRange LONG_BITS (((-1000 : Int) * 2 ^ 4).tdiv 48)) ∧
    (opDiv (Pass (-1000) : FixPoint 8 LONG_BITS) (Pass 48 : FixPoint 4 LONG_BITS)).val = -333 :=
  ⟨by decide,
   (C6_div_trunc 8 4 LONG_BITS (Pass (-1000)) (Pass 48) (by decide) (by decide) (by decide)
     (by decide) (by decide) (by decide)).1.trans (by decide)⟩

/-- `shiftUp` by a negative difference of fractional-bit counts is a floor
division by the corresponding power of two. -/
theorem shiftUp_narrow (W : Nat) (val : Int) (A B : Nat) (h : A < B) :
    shiftUp W val ((A : Int) - (B : Int)) = val / 2 ^ (B - A) := by
  unfold shiftUp
  rw [if_pos (by omega), sar_eq_ediv]
  congr 2
  omega

/-- `shiftUp` by a non-negative difference of fractional-bit counts is a
multiplication by the corresponding power of two, reduced to the storage type. -/
theorem shiftUp_widen (W : Nat) (val : Int) (A B : Nat) (h : B ≤ A) :
    shiftUp W val ((A : Int) - (B : Int)) = wrap W (val * 2 ^ (A - B)) := by
  unfold shiftUp shl
  rw [if_neg (by omega)]
  congr 3
  omega

theorem setTrunc_val (r : FixPoint FRAC_BITS W) (src : FixPoint FRAC_BITS2 W) :
    (setTrunc r src).val = shiftUp W src.val ((FRAC_BITS : Int) - (FRAC_BITS2 : Int)) := rfl

/-- **C7.** Precision round trip.  For every `FixPoint<16>` `x` (storage wider
than 16 bits), with `y` the `FixPoint<8>` set from `x` by `setTrunc` (which is
what the converting constructor does) and `z` the `FixPoint<16>` set from `y`:
`z.val` is `x.val` with its low 8 bits cleared, `(x.val >> 8) << 8`, so that
`0 ≤ x.val - z.val < 256`, and narrowing `z` to `FixPoint<8>` again yields
exactly `y`.  Conversely, for every `FixPoint<8>` `y` whose widened value fits
the storage type, widening to 16 bits and narrowing back to 8 returns `y.val`. -/
theorem C7_precision_round_trip (W : Nat) (hW : 16 < W)
    (r8 : FixPoint 8 W) (r16 : FixPoint 16 W) :
    (∀ x : FixPoint 16 W, inRange W x.val →
      (ofFixPoint x : FixPoint 8 W) = setTrunc r8 x ∧
      (setTrunc r8 x).val = x.val / 2 ^ 8 ∧
      (setTrunc r16 (setTrunc r8 x)).val = x.val / 2 ^ 8 * 2 ^ 8 ∧
      (0 ≤ x.val - (setTrunc r16 (setTrunc r8 x)).val ∧
        x.val - (setTrunc r16 (setTrunc r8 x)).val < 256) ∧
      setTrunc r8 (setTrunc r16 (setTrunc r8 x)) = setTrunc r8 x) ∧
    (∀ y : FixPoint 8 W, inRange W (y.val * 2 ^ 8) →
      (setTrunc r8 (setTrunc r16 y)).val = y.val) := by
  have hK : (2 : Int) ^ (W - 1) = 256 * 2 ^ (W - 9) := by
    have : W - 1 = 8 + (W - 9) := by omega
    rw [this, pow_add]
    norm_num
  have hnarrow : ∀ v : FixPoint 16 W, (setTrunc r8 v).val = v.val / 2 ^ 8 := by
    intro v
    rw [setTrunc_val]
    exact shiftUp_narrow W v.val 8 16 (by norm_num)
  have hwiden : ∀ v : FixPoint 8 W, (setTrunc r16 v).val = wrap W (v.val * 2 ^ 8) := by
    intro v
    rw [setTrunc_val]
    exact shiftUp_widen W v.val 16 8 (by norm_num)
  constructor
  · intro x hx
    have hz : (setTrunc r16 (setTrunc r8 x)).val = x.val / 2 ^ 8 * 2 ^ 8 := by
      rw [hwiden, hnarrow]
      apply wrap_eq_self W _ (by omega)
      unfold inRange at *
      rw [hK] at hx ⊢
      norm_num
      constructor <;> omega
    refine ⟨rfl, hnarrow x, hz, ?_, ?_⟩
    · rw [hz]
      norm_num
      constructor <;> omega
    · have hv : (setTrunc r8 (setTrunc r16 (setTrunc r8 x))).val = (setTrunc r8 x).val := by
        rw [hnarrow, hz, hnarrow]
        norm_num
      cases hs : setTrunc r8 (setTrunc r16 (setTrunc r8 x))
      cases ht : setTrunc r8 x
      rw [hs, ht] at hv
      simpa using hv
  · intro y hy
    rw [hnarrow, hwiden, wrap_eq_self W _ (by omega) hy]
    norm_num

/-- Witness for C7: 32-bit storage, `x.val = -1`; `y.val = -1`, `z.val = -256`. -/
theorem C7_precision_round_trip_witness :
    (16 < LONG_BITS ∧ inRange LONG_BITS (-1)) ∧
    (setTrunc (Pass 0 : FixPoint 16 LONG_BITS)
      (setTrunc (Pass 0 : FixPoint 8 LONG_BITS) (Pass (-1) : FixPoint 16 LONG_BITS))).val
      = -256 :=
  ⟨by decide,
   ((C7_precision_round_trip LONG_BITS (by decide) (Pass 0) (Pass 0)).1 (Pass (-1))
     (by decide)).2.2.1.trans (by decide)⟩

/-- **C8.** Cross-precision equality when promoting: for a left operand `a`
with `A` fractional bits and a right operand `b` with `B ≤ A` fractional bits
such that `b.val << (A-B)` does not overflow, `a == b` evaluates true exactly
when `a` and `b` represent the same rational value,
`a.val / 2^A = b.val / 2^B`.  With `A = 8`, raw 384 and `B = 4`, raw 24 (both
1.5), `a == b` is true. -/
theorem C8_eq_promoting (A B W : Nat) (a : FixPoint A W) (b : FixPoint B W)
    (hW : 0 < W) (hBA : B ≤ A) (hno : inRange W (b.val * 2 ^ (A - B))) :
    (opEq a b = true ↔ (a.val : ℚ) / 2 ^ A = (b.val : ℚ) / 2 ^ B) ∧
    opEq (Pass 384 : FixPoint 8 LONG_BITS) (Pass 24 : FixPoint 4 LONG_BITS) = true := by
  refine ⟨?_, by decide⟩
  have hconv : (ofFixPoint b : FixPoint A W).val = b.val * 2 ^ (A - B) := by
    show (setTrunc _ b).val = _
    rw [setTrunc_val, shiftUp_widen W b.val A B hBA, wrap_eq_self W _ hW hno]
  unfold opEq
  rw [decide_eq_true_eq, hconv]
  have hpow : (2 : ℚ) ^ A = 2 ^ B * 2 ^ (A - B) := by
    rw [← pow_add]
    congr 1
    omega
  have hB : (2 : ℚ) ^ B ≠ 0 := by positivity
  have hAB : (2 : ℚ) ^ (A - B) ≠ 0 := by positivity
  rw [hpow]
  constructor
  · intro h
    rw [h]
    push_cast
    field_simp
    ring
  · intro h
    field_simp at h
    have h' : (a.val : ℚ) = (b.val : ℚ) * 2 ^ (A - B) := by
      have h3 : (a.val : ℚ) * 2 ^ B = (b.val : ℚ) * 2 ^ (A - B) * 2 ^ B := by linarith
      exact mul_right_cancel₀ hB h3
    exact_mod_cast h'

/-- Witness for C8: `A = 8`, `B = 4`, 32-bit storage, raw -384 against raw -24
(both -1.5). -/
theorem C8_eq_promoting_witness :
    (0 < LONG_BITS ∧ 4 ≤ 8 ∧ inRange LONG_BITS ((-24) * 2 ^ (8 - 4))) ∧
    (opEq (Pass (-384) : FixPoint 8 LONG_BITS) (Pass (-24) : FixPoint 4 LONG_BITS) = true ↔
      ((-384 : Int) : ℚ) / 2 ^ 8 = ((-24 : Int) : ℚ) / 2 ^ 4) ∧
    opEq (Pass (-384) : FixPoint 8 LONG_BITS) (Pass (-24) : FixPoint 4 LONG_BITS) = true :=
  ⟨by decide,
   (C8_eq_promoting 8 4 LONG_BITS (Pass (-384)) (Pass (-24)) (by decide) (by decide)
     (by decide)).1,
   by decide⟩

/-- A storage value `n * 2^f` has `n` itself in the storage range. -/
theorem inRange_of_mul_pow (W f : Nat) (n : Int) (h : inRange W (n * 2 ^ f)) : inRange W n := by
  unfold inRange at *
  obtain ⟨h1, h2⟩ := h
  have hP : (0 : Int) < 2 ^ f := by positivity
  have hP1 : (1 : Int) ≤ 2 ^ f := by omega
  have hM : (0 : Int) < 2 ^ (W - 1) := by positivity
  constructor
  · by_contra hc
    push_neg at hc
    nlinarith
  · by_contra hc
    push_neg at hc
    nlinarith

theorem ofInt_val (W f : Nat) (n : Int) (hW : 0 < W) (h : inRange W (n * 2 ^ f)) :
    (ofInt n : FixPoint f W).val = n * 2 ^ f ∧ (ofT n : FixPoint f W).val = n * 2 ^ f := by
  unfold ofInt ofT shl
  rw [wrap_eq_self W n hW (inRange_of_mul_pow W f n h), wrap_eq_self W _ hW h]
  exact ⟨rfl, rfl⟩

/-- **C9 (as stated, refuted).** `FRAC_BITS = 8`, 32-bit storage, `a.val = 0`,
`n = 1`: `a += n` leaves `a.val = 256`, not `0 + 1`, and `a -= n` leaves
`a.val = -256`, not `0 - 1`, for an `int` and for a storage-typed `n` alike. -/
theorem C9_int_add_sub_counterexample :
    ((opAddAssignInt (Pass 0 : FixPoint 8 LONG_BITS) 1).val = 256 ∧
      (opAddAssignInt (Pass 0 : FixPoint 8 LONG_BITS) 1).val
        ≠ (Pass 0 : FixPoint 8 LONG_BITS).val + 1) ∧
    ((opSubAssignInt (Pass 0 : FixPoint 8 LONG_BITS) 1).val = -256 ∧
      (opSubAssignInt (Pass 0 : FixPoint 8 LONG_BITS) 1).val
        ≠ (Pass 0 : FixPoint 8 LONG_BITS).val - 1) ∧
    ((opAddAssignT (Pass 0 : FixPoint 8 LONG_BITS) 1).val = 256 ∧
      (opAddAssignT (Pass 0 : FixPoint 8 LONG_BITS) 1).val
        ≠ (Pass 0 : FixPoint 8 LONG_BITS).val + 1) ∧
    ((opSubAssignT (Pass 0 : FixPoint 8 LONG_BITS) 1).val = -256 ∧
      (opSubAssignT (Pass 0 : FixPoint 8 LONG_BITS) 1).val
        ≠ (Pass 0 : FixPoint 8 LONG_BITS).val - 1) := by
  decide

/-- **C9 (amended).** Integer compound add/subtract is scaled: for every
FixPoint `a` and every bare `int` or storage-typed integer `n` whose scaled
value `n * 2^FRAC_BITS` fits the storage type, `a += n` and `a -= n` give
exactly what adding or subtracting the FixPoint constructed from `n` gives,
and, when the sum (difference) does not overflow, `a += n` leaves
`a.val = old a.val + n * 2^FRAC_BITS` and `a -= n` leaves
`a.val = old a.val - n * 2^FRAC_BITS`. -/
theorem C9_int_add_sub_scaled (FRAC_BITS W : Nat) (a : FixPoint FRAC_BITS W) (n : Int)
    (hW : 0 < W) (hn : inRange W (n * 2 ^ FRAC_BITS)) :
    (opAddAssignInt a n = opAddAssign a (ofInt n : FixPoint FRAC_BITS W) ∧
      opSubAssignInt a n = opSubAssign a (ofInt n : FixPoint FRAC_BITS W) ∧
      opAddAssignT a n = opAddAssign a (ofT n : FixPoint FRAC_BITS W) ∧
      opSubAssignT a n = opSubAssign a (ofT n : FixPoint FRAC_BITS W)) ∧
    (inRange W (a.val + n * 2 ^ FRAC_BITS) →
      (opAddAssignInt a n).val = a.val + n * 2 ^ FRAC_BITS ∧
      (opAddAssignT a n).val = a.val + n * 2 ^ FRAC_BITS) ∧
    (inRange W (a.val - n * 2 ^ FRAC_BITS) →
      (opSubAssignInt a n).val = a.val - n * 2 ^ FRAC_BITS ∧
      (opSubAssignT a n).val = a.val - n * 2 ^ FRAC_BITS) := by
  obtain ⟨hI, hT⟩ := ofInt_val W FRAC_BITS n hW hn
  have hsame : ∀ v : FixPoint FRAC_BITS W, inRange W v.val →
      (ofFixPoint v : FixPoint FRAC_BITS W).val = v.val := by
    intro v hv
    show (setTrunc _ v).val = _
    rw [setTrunc_val, shiftUp_widen W v.val FRAC_BITS FRAC_BITS (le_refl _)]
    simp only [Nat.sub_self, pow_zero, mul_one]
    exact wrap_eq_self W _ hW hv
  have hcI := hsame (ofInt n) (by rw [hI]; exact hn)
  have hcT := hsame (ofT n) (by rw [hT]; exact hn)
  refine ⟨⟨?_, ?_, ?_, ?_⟩, fun hadd => ?_, fun hsub => ?_⟩
  · unfold opAddAssignInt opAddAssign
    rw [hcI]
  · unfold opSubAssignInt opSubAssign
    rw [hcI]
  · unfold opAddAssignT opAddAssign
    rw [hcT]
  · unfold opSubAssignT opSubAssign
    rw [hcT]
  · unfold opAddAssignInt opAddAssignT
    rw [hI, hT, wrap_eq_self W _ hW hadd]
    exact ⟨rfl, rfl⟩
  · unfold opSubAssignInt opSubAssignT
    rw [hI, hT, wrap_eq_self W _ hW hsub]
    exact ⟨rfl, rfl⟩

/-- Witness for C9 (amended): `FRAC_BITS = 8`, 32-bit storage, `a.val = 100`,
`n = -3`: `a += n` leaves `a.val = 100 - 768 = -668`. -/
theorem C9_int_add_sub_scaled_witness :
    (0 < LONG_BITS ∧ inRange LONG_BITS ((-3) * 2 ^ 8) ∧
      inRange LONG_BITS (100 + (-3) * 2 ^ 8)) ∧
    (opAddAssignInt (Pass 100 : FixPoint 8 LONG_BITS) (-3)).val = -668 :=
  ⟨by decide,
   ((C9_int_add_sub_scaled 8 LONG_BITS (Pass 100) (-3) (by decide) (by decide)).2.1
     (by decide)).1.trans (by decide)⟩

/-- Adding the divisor to twice the dividend and dividing by twice the divisor
with truncation toward zero rounds to nearest when the quotient is not
negative. -/
theorem tdiv_bias_nearest (N d : Int) (hs : 0 ≤ N ∧ 0 < d ∨ N ≤ 0 ∧ d < 0) :
    |(2 * N + d).tdiv (2 * d) * (2 * d) - 2 * N| ≤ |d| := by
  have pos : ∀ M e : Int, 0 ≤ M → 0 < e →
      |(2 * M + e).tdiv (2 * e) * (2 * e) - 2 * M| ≤ e := by
    intro M e hM he
    rw [Int.tdiv_eq_ediv (by omega) (by omega)]
    have h1 := Int.ediv_mul_le (2 * M + e) (show (2 * e) ≠ 0 by omega)
    have h2 := Int.lt_ediv_add_one_mul_self (2 * M + e) (show 0 < 2 * e by omega)
    rw [abs_le]
    constructor <;> linarith
  rcases hs with ⟨hN, hd⟩ | ⟨hN, hd⟩
  · rw [abs_of_pos hd]
    exact pos N d hN hd
  · have h := pos (-N) (-d) (by omega) (by omega)
    have e1 : 2 * N + d = -(2 * -N + -d) := by ring
    have e2 : 2 * d = -(2 * -d) := by ring
    rw [abs_of_neg hd, e1, e2, Int.neg_tdiv_neg, ← abs_neg]
    have e3 : -((2 * -N + -d).tdiv (2 * -d) * -(2 * -d) - 2 * N)
        = (2 * -N + -d).tdiv (2 * -d) * (2 * -d) - 2 * -N := by ring
    have e4 : -(2 * -N + -d) = 2 * N + d := by ring
    rw [e4] at *
    rw [e3]
    exact h

/-- Where the code does round to nearest: when no intermediate overflows and
the exact quotient is not negative (`a.val` and `d.val` of the same sign),
`doDiv64Closest` leaves a raw value within 1/2 of `a.val * 2^FRAC_BITS2 / d.val`. -/
theorem doDiv64Closest_nearest_of_same_sign (a : FixPoint FRAC_BITS W)
    (d : FixPoint FRAC_BITS2 LONG_BITS) (hW : 0 < W) (hW64 : W ≤ LLONG_BITS)
    (ha : inRange W a.val)
    (hsh : inRange LLONG_BITS (a.val * 2 ^ (FRAC_BITS2 + 1)))
    (hsum : inRange LLONG_BITS (a.val * 2 ^ (FRAC_BITS2 + 1) + d.val))
    (hd2 : inRange LONG_BITS (d.val * 2 ^ 1))
    (hq : inRange W ((a.val * 2 ^ (FRAC_BITS2 + 1) + d.val).tdiv (d.val * 2 ^ 1)))
    (hs : 0 ≤ a.val ∧ 0 < d.val ∨ a.val ≤ 0 ∧ d.val < 0) :
    |((doDiv64Closest a d).val : ℚ) - ((a.val : ℚ) * 2 ^ FRAC_BITS2) / (d.val : ℚ)| ≤ 1 / 2 := by
  have hval : (doDiv64Closest a d).val
      = (2 * (a.val * 2 ^ FRAC_BITS2) + d.val).tdiv (2 * d.val) := by
    have e1 : a.val * 2 ^ (FRAC_BITS2 + 1) = 2 * (a.val * 2 ^ FRAC_BITS2) := by
      rw [pow_succ]; ring
    have e2 : d.val * 2 ^ 1 = 2 * d.val := by ring
    unfold doDiv64Closest shl
    rw [wrap_eq_self _ _ (by norm_num) (inRange_mono _ _ _ hW64 ha),
      wrap_eq_self _ _ (by norm_num) hsh, wrap_eq_self _ _ (by norm_num) hsum,
      wrap_eq_self _ _ (by norm_num) hd2, wrap_eq_self _ _ hW hq, e1, e2]
  have hP : (0 : Int) < 2 ^ FRAC_BITS2 := by positivity
  have hs' : 0 ≤ a.val * 2 ^ FRAC_BITS2 ∧ 0 < d.val ∨ a.val * 2 ^ FRAC_BITS2 ≤ 0 ∧ d.val < 0 := by
    rcases hs with ⟨h1, h2⟩ | ⟨h1, h2⟩
    · exact Or.inl ⟨by positivity, h2⟩
    · exact Or.inr ⟨by nlinarith, h2⟩
  have hcore := tdiv_bias_nearest (a.val * 2 ^ FRAC_BITS2) d.val hs'
  rw [hval]
  generalize (2 * (a.val * 2 ^ FRAC_BITS2) + d.val).tdiv (2 * d.val) = q at *
  have hd0 : d.val ≠ 0 := by
    rcases hs with ⟨_, h2⟩ | ⟨_, h2⟩ <;> omega
  have hdq : (d.val : ℚ) ≠ 0 := by exact_mod_cast hd0
  have hcoreq : |(q : ℚ) * (2 * (d.val : ℚ)) - 2 * ((a.val : ℚ) * 2 ^ FRAC_BITS2)|
      ≤ |(d.val : ℚ)| := by
    exact_mod_cast hcore
  have hdpos : (0 : ℚ) < |(d.val : ℚ)| := abs_pos.mpr hdq
  have hrew : (q : ℚ) - ((a.val : ℚ) * 2 ^ FRAC_BITS2) / (d.val : ℚ)
      = ((q : ℚ) * (2 * (d.val : ℚ)) - 2 * ((a.val : ℚ) * 2 ^ FRAC_BITS2)) / (2 * (d.val : ℚ)) := by
    field_simp
    ring
  rw [hrew, abs_div, abs_mul, abs_two, div_le_iff₀ (by positivity)]
  linarith

/-- **C10 (the code evaluated at the failing input).** `FRAC_BITS = 8`,
`FRAC_BITS2 = 8`, `a.val = -5`, `d.val = 1024` (4.0), no intermediate overflows:
the exact quotient `a.val * 2^8 / d.val` is -1.25, whose nearest integer is -1,
and both `doDiv64Closest` and `doDiv32Closest` leave `a.val = 0`, at distance
1.25 from the exact quotient.  The same happens with the signs exchanged
(`a.val = 5`, `d.val = -1024`). -/
theorem C10_div_closest_negative_quotient :
    ((Pass 1024 : FixPoint 8 LONG_BITS).val ≠ 0 ∧
      inRange LLONG_BITS ((-5) * 2 ^ (8 + 1) + 1024) ∧ inRange LONG_BITS (1024 * 2 ^ 1)) ∧
    (doDiv64Closest (Pass (-5) : FixPoint 8 LONG_BITS) (Pass 1024 : FixPoint 8 LONG_BITS)).val = 0 ∧
    (doDiv32Closest (Pass (-5) : FixPoint 8 LONG_BITS) (Pass 1024 : FixPoint 8 LONG_BITS)).val = 0 ∧
    (doDiv64Closest (Pass 5 : FixPoint 8 LONG_BITS) (Pass (-1024) : FixPoint 8 LONG_BITS)).val = 0 ∧
    (doDiv32Closest (Pass 5 : FixPoint 8 LONG_BITS) (Pass (-1024) : FixPoint 8 LONG_BITS)).val = 0 ∧
    ¬ (|(((doDiv64Closest (Pass (-5) : FixPoint 8 LONG_BITS)
          (Pass 1024 : FixPoint 8 LONG_BITS)).val : Int) : ℚ)
        - (((-5 : Int) : ℚ) * 2 ^ 8) / ((1024 : Int) : ℚ)| ≤ 1 / 2) ∧
    |((-1 : Int) : ℚ) - (((-5 : Int) : ℚ) * 2 ^ 8) / ((1024 : Int) : ℚ)| ≤ 1 / 2 := by
  have h64 : (doDiv64Closest (Pass (-5) : FixPoint 8 LONG_BITS)
      (Pass 1024 : FixPoint 8 LONG_BITS)).val = 0 := by decide
  refine ⟨by decide, h64, by decide, by decide, by decide, ?_, ?_⟩
  · rw [h64]
    norm_num [abs_of_pos]
  · norm_num [abs_le]

/-- `⌊s / 2^k + 1/2⌋` over the rationals is the integer quotient
`(s + 2^(k-1)) / 2^k`. -/
theorem rat_floor_half (s : Int) (k : Nat) (hk : 1 ≤ k) :
    ⌊(s : ℚ) / 2 ^ k + 1 / 2⌋ = (s + 2 ^ (k - 1)) / 2 ^ k := by
  have hP : (0 : Int) < 2 ^ k := by positivity
  have h2 := two_pow_pred_add k (by omega)
  have h2q : ((2 : ℚ) ^ k) = 2 ^ (k - 1) + 2 ^ (k - 1) := by exact_mod_cast h2
  have hpos : (0 : ℚ) < 2 ^ (k - 1) := by positivity
  have hq : (s : ℚ) / 2 ^ k + 1 / 2
      = ((s + 2 ^ (k - 1) : Int) : ℚ) / (((2 : Int) ^ k : Int) : ℚ) := by
    push_cast
    rw [h2q]
    field_simp
    ring
  rw [hq, rat_floor_div _ _ hP]

/-- `shiftUp` of 1 by a non-negative count is the power of two, reduced to the
storage type. -/
theorem shiftUp_one_nonneg (W : Nat) (s : Int) (n : Nat) (hs : s = (n : Int)) :
    shiftUp W 1 s = wrap W (2 ^ n) := by
  unfold shiftUp shl
  rw [if_neg (by omega), one_mul, hs, Int.toNat_ofNat]

/-- `shiftUp` of 1 by a negative count is 0. -/
theorem shiftUp_one_neg (W : Nat) (s : Int) (hs : s < 0) : shiftUp W 1 s = 0 := by
  unfold shiftUp
  rw [if_pos hs, sar_eq_ediv]
  apply Int.ediv_eq_zero_of_lt (by norm_num)
  have : (2 : Int) ^ 1 ≤ 2 ^ (-s).toNat := pow_le_pow_right₀ (by norm_num) (by omega)
  omega

/-- The raw value set by `setClosest` from a source with more fractional bits. -/
theorem setClosest_val_narrow (r : FixPoint FRAC_BITS W) (src : FixPoint FRAC_BITS2 W)
    (hW : 0 < W) (hlt : FRAC_BITS < FRAC_BITS2)
    (hno : inRange W (src.val + 2 ^ (FRAC_BITS2 - FRAC_BITS - 1))) :
    (setClosest r src).val
      = (src.val + 2 ^ (FRAC_BITS2 - FRAC_BITS - 1)) / 2 ^ (FRAC_BITS2 - FRAC_BITS) := by
  unfold setClosest
  rw [shiftUp_one_nonneg W _ (FRAC_BITS2 - FRAC_BITS - 1) (by omega), add_comm src.val,
    wrap_add_wrap, add_comm, wrap_eq_self W _ hW hno]
  exact shiftUp_narrow W _ FRAC_BITS FRAC_BITS2 hlt

/-- The raw value set by `setClosest` from a source with no extra fractional bits. -/
theorem setClosest_val_widen (r : FixPoint FRAC_BITS W) (src : FixPoint FRAC_BITS2 W)
    (hW : 0 < W) (hle : FRAC_BITS2 ≤ FRAC_BITS) (hsrc : inRange W src.val) :
    (setClosest r src).val = (setTrunc r src).val := by
  unfold setClosest setTrunc
  rw [shiftUp_one_neg W _ (by omega), add_zero, wrap_eq_self W _ hW hsrc]

/-- **C11.** `setClosest` from a FixPoint source rounds to nearest.  For a
source with `FRAC_BITS2 > FRAC_BITS`, `k = FRAC_BITS2 - FRAC_BITS`, when adding
the bias `2^(k-1)` does not overflow, `setClosest(src)` sets
`val = ⌊src.val / 2^k + 1/2⌋` (nearest, exact ties to the higher value), so
that `|val * 2^k - src.val| ≤ 2^(k-1)`.  For `FRAC_BITS2 ≤ FRAC_BITS` the bias
`shiftUp(1, FRAC_BITS2-FRAC_BITS-1)` is zero and `setClosest(src)` sets the
same `val` as `setTrunc(src)`. -/
theorem C11_setClosest (FRAC_BITS FRAC_BITS2 W : Nat) (r : FixPoint FRAC_BITS W)
    (src : FixPoint FRAC_BITS2 W) (hW : 0 < W) (hsrc : inRange W src.val) :
    (FRAC_BITS < FRAC_BITS2 → inRange W (src.val + 2 ^ (FRAC_BITS2 - FRAC_BITS - 1)) →
      (setClosest r src).val = ⌊(src.val : ℚ) / 2 ^ (FRAC_BITS2 - FRAC_BITS) + 1 / 2⌋ ∧
      |(setClosest r src).val * 2 ^ (FRAC_BITS2 - FRAC_BITS) - src.val|
        ≤ 2 ^ (FRAC_BITS2 - FRAC_BITS - 1)) ∧
    (FRAC_BITS2 ≤ FRAC_BITS →
      shiftUp W 1 ((FRAC_BITS2 : Int) - (FRAC_BITS : Int) - 1) = 0 ∧
      (setClosest r src).val = (setTrunc r src).val) := by
  constructor
  · intro hlt hno
    have hv := setClosest_val_narrow r src hW hlt hno
    refine ⟨?_, ?_⟩
    · rw [hv, rat_floor_half _ _ (by omega)]
    · rw [hv]
      have hP : (0 : Int) < 2 ^ (FRAC_BITS2 - FRAC_BITS) := by positivity
      have h2 := two_pow_pred_add (FRAC_BITS2 - FRAC_BITS) (by omega)
      have h1 := Int.ediv_mul_le (src.val + 2 ^ (FRAC_BITS2 - FRAC_BITS - 1)) (ne_of_gt hP)
      have h3 := Int.lt_ediv_add_one_mul_self (src.val + 2 ^ (FRAC_BITS2 - FRAC_BITS - 1)) hP
      rw [abs_le]
      constructor <;> linarith
  · intro hle
    exact ⟨shiftUp_one_neg W _ (by omega), setClosest_val_widen r src hW hle hsrc⟩

/-- Witness for C11: `FRAC_BITS = 4`, `FRAC_BITS2 = 8`, 32-bit storage,
`src.val = -24` (a tie, -1.5 target units): the result is -1. -/
theorem C11_setClosest_witness :
    (0 < LONG_BITS ∧ inRange LONG_BITS (-24) ∧ 4 < 8 ∧ inRange LONG_BITS (-24 + 2 ^ (8 - 4 - 1))) ∧
    (setClosest (Pass 0 : FixPoint 4 LONG_BITS) (Pass (-24) : FixPoint 8 LONG_BITS)).val
      = ⌊((-24 : Int) : ℚ) / 2 ^ (8 - 4) + 1 / 2⌋ ∧
    (setClosest (Pass 0 : FixPoint 4 LONG_BITS) (Pass (-24) : FixPoint 8 LONG_BITS)).val = -1 :=
  ⟨by decide,
   ((C11_setClosest 4 8 LONG_BITS (Pass 0) (Pass (-24)) (by decide) (by decide)).1
     (by decide) (by decide)).1,
   by decide⟩

/-- The raw value set by `setClosestHigher` from a source with more fractional bits. -/
theorem setClosestHigher_val_narrow (r : FixPoint FRAC_BITS W) (src : FixPoint FRAC_BITS2 W)
    (hW : 0 < W) (hlt : FRAC_BITS < FRAC_BITS2)
    (hno : inRange W (src.val + 2 ^ (FRAC_BITS2 - FRAC_BITS) - 1)) :
    (setClosestHigher r src).val
      = (src.val + 2 ^ (FRAC_BITS2 - FRAC_BITS) - 1) / 2 ^ (FRAC_BITS2 - FRAC_BITS) := by
  unfold setClosestHigher
  rw [if_pos hlt]
  show shiftUp W _ _ = _
  rw [shiftUp_one_nonneg W _ (FRAC_BITS2 - FRAC_BITS) (by omega), add_comm src.val,
    wrap_add_wrap, sub_eq_add_neg, wrap_add_wrap, ← sub_eq_add_neg, add_comm _ src.val,
    wrap_eq_self W _ hW hno]
  exact shiftUp_narrow W _ FRAC_BITS FRAC_BITS2 hlt

/-- **C12.** `setClosestHigher` from a FixPoint source is a ceiling.  For a
source with `FRAC_BITS2 > FRAC_BITS`, `k = FRAC_BITS2 - FRAC_BITS`, without
overflow, `setClosestHigher(src)` sets `val = ⌈src.val / 2^k⌉`, the smallest
target-precision raw value whose represented value is at least the source's.
For a source with `FRAC_BITS2 ≤ FRAC_BITS` it sets exactly the `val` of the
truncating `set(src)`. -/
theorem C12_setClosestHigher (FRAC_BITS FRAC_BITS2 W : Nat) (r : FixPoint FRAC_BITS W)
    (src : FixPoint FRAC_BITS2 W) (hW : 0 < W) :
    (FRAC_BITS < FRAC_BITS2 → inRange W (src.val + 2 ^ (FRAC_BITS2 - FRAC_BITS) - 1) →
      (setClosestHigher r src).val = ⌈(src.val : ℚ) / 2 ^ (FRAC_BITS2 - FRAC_BITS)⌉ ∧
      (src.val : ℚ) / 2 ^ FRAC_BITS2 ≤ ((setClosestHigher r src).val : ℚ) / 2 ^ FRAC_BITS ∧
      ∀ m : Int, (src.val : ℚ) / 2 ^ FRAC_BITS2 ≤ (m : ℚ) / 2 ^ FRAC_BITS →
        (setClosestHigher r src).val ≤ m) ∧
    (FRAC_BITS2 ≤ FRAC_BITS →
      setClosestHigher r src = set r src ∧
      (setClosestHigher r src).val = (setTrunc r src).val) := by
  constructor
  · intro hlt hno
    have hP : (0 : Int) < 2 ^ (FRAC_BITS2 - FRAC_BITS) := by positivity
    have hcast : ((2 : ℚ) ^ (FRAC_BITS2 - FRAC_BITS))
        = (((2 : Int) ^ (FRAC_BITS2 - FRAC_BITS) : Int) : ℚ) := by push_cast; rfl
    have hceil : (setClosestHigher r src).val
        = ⌈(src.val : ℚ) / 2 ^ (FRAC_BITS2 - FRAC_BITS)⌉ := by
      rw [setClosestHigher_val_narrow r src hW hlt hno, hcast, rat_ceil_div _ _ hP]
    have hpow : (2 : ℚ) ^ FRAC_BITS2 = 2 ^ FRAC_BITS * 2 ^ (FRAC_BITS2 - FRAC_BITS) := by
      rw [← pow_add]
      congr 1
      omega
    have hF : (0 : ℚ) < 2 ^ FRAC_BITS := by positivity
    have hk : (0 : ℚ) < 2 ^ (FRAC_BITS2 - FRAC_BITS) := by positivity
    have hiff : ∀ m : Int, (src.val : ℚ) / 2 ^ FRAC_BITS2 ≤ (m : ℚ) / 2 ^ FRAC_BITS ↔
        (src.val : ℚ) / 2 ^ (FRAC_BITS2 - FRAC_BITS) ≤ (m : ℚ) := by
      intro m
      rw [hpow, div_le_div_iff₀ (by positivity) hF, div_le_iff₀ hk]
      constructor
      · intro h
        nlinarith
      · intro h
        nlinarith
    refine ⟨hceil, ?_, ?_⟩
    · rw [hiff, hceil]
      exact Int.le_ceil _
    · intro m hm
      rw [hceil]
      exact Int.ceil_le.mpr ((hiff m).mp hm)
  · intro hle
    have h : setClosestHigher r src = set r src := by
      unfold setClosestHigher
      rw [if_neg (by omega)]
    exact ⟨h, by rw [h]; rfl⟩

/-- Witness for C12: `FRAC_BITS = 4`, `FRAC_BITS2 = 8`, 32-bit storage,
`src.val = -17` (just below -1 target unit): the result is -1. -/
theorem C12_setClosestHigher_witness :
    (0 < LONG_BITS ∧ 4 < 8 ∧ inRange LONG_BITS (-17 + 2 ^ (8 - 4) - 1)) ∧
    (setClosestHigher (Pass 0 : FixPoint 4 LONG_BITS) (Pass (-17) : FixPoint 8 LONG_BITS)).val
      = ⌈((-17 : Int) : ℚ) / 2 ^ (8 - 4)⌉ ∧
    (setClosestHigher (Pass 0 : FixPoint 4 LONG_BITS) (Pass (-17) : FixPoint 8 LONG_BITS)).val
      = -1 :=
  ⟨by decide,
   ((C12_setClosestHigher 4 8 LONG_BITS (Pass 0) (Pass (-17)) (by decide)).1
     (by decide) (by decide)).1,
   by decide⟩

/-! ### Two's-complement masks -/

theorem int_not_eq (n : Int) : Int.not n = -n - 1 := by
  cases n with
  | ofNat m => simp [Int.not, Int.negSucc_eq]; ring
  | negSucc m => simp [Int.not, Int.negSucc_eq]

theorem land_zero_right (x : Int) : Int.land x 0 = 0 := by
  cases x with
  | ofNat m => simp [Int.land]
  | negSucc m =>
    show Int.land (Int.negSucc m) (Int.ofNat 0) = 0
    simp [Int.land, Nat.ldiff, Nat.bitwise_zero_left]

theorem land_neg_one_right (x : Int) : Int.land x (-1) = x := by
  cases x with
  | ofNat m =>
    show Int.land (Int.ofNat m) (Int.negSucc 0) = _
    simp [Int.land, Nat.ldiff, Nat.bitwise_zero_right]
  | negSucc m =>
    show Int.land (Int.negSucc m) (Int.negSucc 0) = _
    simp [Int.land]

/-- Quotient and remainder by `2 * P` in terms of the lowest bit and the rest. -/
theorem bit_divmod (x P : Int) (hP : 0 < P) :
    x / (P * 2) = x.div2 / P ∧
    x % (P * 2) = 2 * (x.div2 % P) + (bif x.bodd then 1 else 0) := by
  have h1 := Int.emod_nonneg x.div2 (ne_of_gt hP)
  have h2 := Int.emod_lt_of_pos x.div2 hP
  have h3 := Int.emod_add_ediv x.div2 P
  have hb := Int.bodd_add_div2 x
  rw [Int.ediv_emod_unique (by omega)]
  refine ⟨by nlinarith, ?_, ?_⟩
  · cases x.bodd <;> simp <;> omega
  · cases x.bodd <;> simp <;> omega

/-- `x & (2^f - 1)` keeps the low `f` bits: the non-negative remainder modulo `2^f`. -/
theorem land_mask (f : Nat) : ∀ x : Int, Int.land x (2 ^ f - 1) = x % 2 ^ f := by
  induction f with
  | zero => intro x; simp [land_zero_right]
  | succ f ih =>
    intro x
    have hm : (2 : Int) ^ (f + 1) - 1 = Int.bit true (2 ^ f - 1) := by
      rw [Int.bit_val, pow_succ]; simp; ring
    rw [hm]
    conv_lhs => rw [← Int.bit_decomp x]
    rw [Int.land_bit, ih, Int.bit_val, Bool.and_true, pow_succ,
      (bit_divmod x (2 ^ f) (by positivity)).2]

/-- `x & ~(2^f - 1)` clears the low `f` bits: the largest multiple of `2^f` not above `x`. -/
theorem land_not_mask (f : Nat) :
    ∀ x : Int, Int.land x (Int.not (2 ^ f - 1)) = x / 2 ^ f * 2 ^ f := by
  induction f with
  | zero => intro x; simp [int_not_eq, land_neg_one_right]
  | succ f ih =>
    intro x
    have hm : Int.not ((2 : Int) ^ (f + 1) - 1) = Int.bit false (Int.not (2 ^ f - 1)) := by
      rw [Int.bit_val, int_not_eq, int_not_eq, pow_succ]; simp; ring
    rw [hm]
    conv_lhs => rw [← Int.bit_decomp x]
    rw [Int.land_bit, ih, Int.bit_val, Bool.and_false, pow_succ,
      (bit_divmod x (2 ^ f) (by positivity)).1]
    simp
    ring

/-- The storage range is closed under rounding down to a multiple of `2^f`. -/
theorem floor_multiple_inRange (W f : Nat) (v : Int) (hW : f < W) (hv : inRange W v) :
    inRange W (v / 2 ^ f * 2 ^ f) := by
  unfold inRange at *
  have hP : (0 : Int) < 2 ^ f := by positivity
  have hK : (2 : Int) ^ (W - 1) = 2 ^ (W - 1 - f) * 2 ^ f := by
    rw [← pow_add]
    congr 1
    omega
  have h1 := Int.ediv_mul_le v (ne_of_gt hP)
  have h2 : -(2 ^ (W - 1 - f)) ≤ v / 2 ^ f := by
    rw [Int.le_ediv_iff_mul_le hP]
    linarith [hv.1]
  constructor
  · nlinarith
  · linarith [hv.2]

/-- A storage value that is `q * 2^FRAC_BITS` has no fraction, and `getFloor()`,
`getRound()` and `getCeil()` all return `q`. -/
theorem snapped (y : FixPoint FRAC_BITS W) (q : Int) (hF : 1 ≤ FRAC_BITS)
    (hW : FRAC_BITS < W) (hy : y.val = q * 2 ^ FRAC_BITS) (hr : inRange W y.val) :
    getFracRaw y = 0 ∧ getFloor y = q ∧ getRound y = q ∧ getCeil y = q := by
  have hP : (0 : Int) < 2 ^ FRAC_BITS := by positivity
  have hH : (0 : Int) < 2 ^ (FRAC_BITS - 1) := by positivity
  have h2 := two_pow_pred_add FRAC_BITS (by omega)
  have hK : (2 : Int) ^ (W - 1) = 2 ^ (W - 1 - FRAC_BITS) * 2 ^ FRAC_BITS := by
    rw [← pow_add]
    congr 1
    omega
  have hq : q + 1 ≤ 2 ^ (W - 1 - FRAC_BITS) := by
    by_contra hc
    push_neg at hc
    have hr2 := hr.2
    rw [hy, hK] at hr2
    nlinarith
  have hup : q * 2 ^ FRAC_BITS + 2 ^ FRAC_BITS ≤ 2 ^ (W - 1) := by
    rw [hK]
    nlinarith
  have hlo := hr.1
  rw [hy] at hlo
  refine ⟨?_, ?_, ?_, ?_⟩
  · unfold getFracRaw
    rw [FracMask_eq _ _ hW, land_mask, hy]
    exact Int.mul_emod_left q _
  · rw [getFloor_eq, hy]
    exact Int.mul_ediv_cancel q (ne_of_gt hP)
  · rw [getRound_eq y hF hW (by
      rw [FracTopBit_eq _ _ hF hW, hy]
      exact ⟨by linarith, by linarith⟩), hy, add_comm,
      Int.add_mul_ediv_right _ _ (ne_of_gt hP),
      Int.ediv_eq_zero_of_lt (le_of_lt hH) (by omega)]
    simp
  · rw [getCeil_eq y hW (by
      rw [FracMask_eq _ _ hW, hy]
      exact ⟨by linarith, by linarith⟩), hy]
    have e : q * 2 ^ FRAC_BITS + 2 ^ FRAC_BITS - 1 = (2 ^ FRAC_BITS - 1) + q * 2 ^ FRAC_BITS := by
      ring
    rw [e, Int.add_mul_ediv_right _ _ (ne_of_gt hP),
      Int.ediv_eq_zero_of_lt (by omega) (by omega)]
    simp

/-- **C13.** Each in-place rounding operation snaps `val` to the value its
extraction counterpart returns.  For `1 ≤ FRAC_BITS` (below the storage
width) and every `val` for which the biased add does not overflow: after
`doRound()` the new `val` is the old `getRound() << FRAC_BITS`, after
`doCeil()` it is the old `getCeil() << FRAC_BITS`, after `doFloor()` it is
the old `getFloor() << FRAC_BITS`; in all three cases the result has
`getFracRaw() = 0`, and its `getFloor()`, `getRound()` and `getCeil()` agree. -/
theorem C13_in_place_rounding (FRAC_BITS W : Nat) (x : FixPoint FRAC_BITS W)
    (hF : 1 ≤ FRAC_BITS) (hW : FRAC_BITS < W) (hval : inRange W x.val)
    (hno : inRange W (x.val + FracMask FRAC_BITS W)) :
    ((doRound x).val = shl W (getRound x) FRAC_BITS ∧
      (doRound x).val = getRound x * 2 ^ FRAC_BITS ∧
      getFracRaw (doRound x) = 0 ∧
      getFloor (doRound x) = getRound (doRound x) ∧
      getRound (doRound x) = getCeil (doRound x)) ∧
    ((doCeil x).val = shl W (getCeil x) FRAC_BITS ∧
      (doCeil x).val = getCeil x * 2 ^ FRAC_BITS ∧
      getFracRaw (doCeil x) = 0 ∧
      getFloor (doCeil x) = getRound (doCeil x) ∧
      getRound (doCeil x) = getCeil (doCeil x)) ∧
    ((doFloor x).val = shl W (getFloor x) FRAC_BITS ∧
      (doFloor x).val = getFloor x * 2 ^ FRAC_BITS ∧
      getFracRaw (doFloor x) = 0 ∧
      getFloor (doFloor x) = getRound (doFloor x) ∧
      getRound (doFloor x) = getCeil (doFloor x)) := by
  have hW0 : 0 < W := by omega
  have htop := inRange_add_FracTopBit x hF hW hval hno
  have hround : (doRound x).val = getRound x * 2 ^ FRAC_BITS := by
    unfold doRound getRound
    rw [FracMask_eq _ _ hW, land_not_mask, sar_eq_ediv]
  have hceil : (doCeil x).val = getCeil x * 2 ^ FRAC_BITS := by
    unfold doCeil getCeil
    rw [FracMask_eq _ _ hW, land_not_mask, sar_eq_ediv]
  have hfloor : (doFloor x).val = getFloor x * 2 ^ FRAC_BITS := by
    unfold doFloor getFloor
    rw [FracMask_eq _ _ hW, land_not_mask, sar_eq_ediv]
  have hrR : inRange W (doRound x).val := by
    rw [hround]
    unfold getRound
    rw [sar_eq_ediv, wrap_eq_self W _ hW0 htop]
    exact floor_multiple_inRange W FRAC_BITS _ hW htop
  have hrC : inRange W (doCeil x).val := by
    rw [hceil]
    unfold getCeil
    rw [sar_eq_ediv, wrap_eq_self W _ hW0 hno]
    exact floor_multiple_inRange W FRAC_BITS _ hW hno
  have hrF : inRange W (doFloor x).val := by
    rw [hfloor, getFloor_eq]
    exact floor_multiple_inRange W FRAC_BITS _ hW hval
  obtain ⟨r1, r2, r3, r4⟩ := snapped (doRound x) (getRound x) hF hW hround hrR
  obtain ⟨c1, c2, c3, c4⟩ := snapped (doCeil x) (getCeil x) hF hW hceil hrC
  obtain ⟨f1, f2, f3, f4⟩ := snapped (doFloor x) (getFloor x) hF hW hfloor hrF
  refine ⟨⟨?_, hround, r1, by rw [r2, r3], by rw [r3, r4]⟩,
    ⟨?_, hceil, c1, by rw [c2, c3], by rw [c3, c4]⟩,
    ⟨?_, hfloor, f1, by rw [f2, f3], by rw [f3, f4]⟩⟩
  · unfold shl
    rw [← hround, wrap_eq_self W _ hW0 hrR]
  · unfold shl
    rw [← hceil, wrap_eq_self W _ hW0 hrC]
  · unfold shl
    rw [← hfloor, wrap_eq_self W _ hW0 hrF]

/-- Witness for C13: `FRAC_BITS = 8`, 32-bit storage, `val = -384` (-1.5):
`doRound()` leaves -256, `doCeil()` leaves -256 and `doFloor()` leaves -512. -/
theorem C13_in_place_rounding_witness :
    (1 ≤ 8 ∧ 8 < LONG_BITS ∧ inRange LONG_BITS (-384) ∧
      inRange LONG_BITS (-384 + FracMask 8 LONG_BITS)) ∧
    (doRound (Pass (-384) : FixPoint 8 LONG_BITS)).val
      = getRound (Pass (-384) : FixPoint 8 LONG_BITS) * 2 ^ 8 ∧
    (doRound (Pass (-384) : FixPoint 8 LONG_BITS)).val = -256 ∧
    (doCeil (Pass (-384) : FixPoint 8 LONG_BITS)).val = -256 ∧
    (doFloor (Pass (-384) : FixPoint 8 LONG_BITS)).val = -512 :=
  ⟨by decide,
   (C13_in_place_rounding 8 LONG_BITS (Pass (-384)) (by decide) (by decide) (by decide)
     (by decide)).1.2.1,
   by decide, by decide, by decide⟩

/-- Rational bounds for a right operand narrowed by `k` bits: with
`q = ⌊b / 2^k⌋`, `q / 2^A ≤ b / 2^(A+k) < (q + 1) / 2^A`. -/
theorem narrowed_value_bounds (b : Int) (A B : Nat) (h : A < B) :
    ((b / 2 ^ (B - A) : Int) : ℚ) / 2 ^ A ≤ (b : ℚ) / 2 ^ B ∧
    (b : ℚ) / 2 ^ B < ((b / 2 ^ (B - A) : Int) : ℚ) / 2 ^ A + 1 / 2 ^ A := by
  have hP : (0 : Int) < 2 ^ (B - A) := by positivity
  have h1 := Int.ediv_mul_le b (ne_of_gt hP)
  have h2 := Int.lt_ediv_add_one_mul_self b hP
  have hPa : (0 : ℚ) < 2 ^ A := by positivity
  have hPk : (0 : ℚ) < 2 ^ (B - A) := by positivity
  have hpow : (2 : ℚ) ^ B = 2 ^ (B - A) * 2 ^ A := by
    rw [← pow_add]
    congr 1
    omega
  have h1q : ((b / 2 ^ (B - A) : Int) : ℚ) * 2 ^ (B - A) ≤ (b : ℚ) := by exact_mod_cast h1
  have h2q : (b : ℚ) < (((b / 2 ^ (B - A) : Int) : ℚ) + 1) * 2 ^ (B - A) := by exact_mod_cast h2
  have e : (b : ℚ) / 2 ^ B = ((b : ℚ) / 2 ^ (B - A)) / 2 ^ A := by
    rw [hpow, div_div]
  rw [e, ← add_div]
  constructor
  · rw [div_le_div_iff_of_pos_right hPa]
    exact (le_div_iff₀ hPk).mpr h1q
  · rw [div_lt_div_iff_of_pos_right hPa]
    exact (div_lt_iff₀ hPk).mpr h2q

/-- **C14.** Add/subtract convert the right operand to the receiver's
precision: for `a` with `A` and `b` with `B` fractional bits,
`(a + b).val = a.val + shiftUp(b.val, A - B)` and
`(a - b).val = a.val - shiftUp(b.val, A - B)` in the storage type (exactly,
when the sum or difference does not overflow), the result having `A`
fractional bits.  For `B ≤ A`, without overflow, the result represents exactly
`value(a) ± value(b)`.  For `B > A` the sum is `value(a)` plus `value(b)`
truncated toward negative infinity to `A` bits: at most the exact sum and
short of it by less than one epsilon of the receiver (the difference is at
least the exact difference and above it by less than one epsilon). -/
theorem C14_add_sub_receiver_precision (A B W : Nat) (a : FixPoint A W) (b : FixPoint B W)
    (hW : 0 < W) :
    ((opAdd a b).val = wrap W (a.val + shiftUp W b.val ((A : Int) - (B : Int))) ∧
      (opSub a b).val = wrap W (a.val - shiftUp W b.val ((A : Int) - (B : Int)))) ∧
    (inRange W (a.val + shiftUp W b.val ((A : Int) - (B : Int))) →
      (opAdd a b).val = a.val + shiftUp W b.val ((A : Int) - (B : Int))) ∧
    (inRange W (a.val - shiftUp W b.val ((A : Int) - (B : Int))) →
      (opSub a b).val = a.val - shiftUp W b.val ((A : Int) - (B : Int))) ∧
    (B ≤ A → inRange W (b.val * 2 ^ (A - B)) →
      (inRange W (a.val + b.val * 2 ^ (A - B)) →
        ((opAdd a b).val : ℚ) / 2 ^ A = (a.val : ℚ) / 2 ^ A + (b.val : ℚ) / 2 ^ B) ∧
      (inRange W (a.val - b.val * 2 ^ (A - B)) →
        ((opSub a b).val : ℚ) / 2 ^ A = (a.val : ℚ) / 2 ^ A - (b.val : ℚ) / 2 ^ B)) ∧
    (A < B →
      (inRange W (a.val + b.val / 2 ^ (B - A)) →
        (opAdd a b).val = a.val + b.val / 2 ^ (B - A) ∧
        ((opAdd a b).val : ℚ) / 2 ^ A ≤ (a.val : ℚ) / 2 ^ A + (b.val : ℚ) / 2 ^ B ∧
        (a.val : ℚ) / 2 ^ A + (b.val : ℚ) / 2 ^ B < ((opAdd a b).val : ℚ) / 2 ^ A + 1 / 2 ^ A) ∧
      (inRange W (a.val - b.val / 2 ^ (B - A)) →
        (opSub a b).val = a.val - b.val / 2 ^ (B - A) ∧
        (a.val : ℚ) / 2 ^ A - (b.val : ℚ) / 2 ^ B ≤ ((opSub a b).val : ℚ) / 2 ^ A ∧
        ((opSub a b).val : ℚ) / 2 ^ A
          < (a.val : ℚ) / 2 ^ A - (b.val : ℚ) / 2 ^ B + 1 / 2 ^ A)) := by
  have hadd : (opAdd a b).val = wrap W (a.val + shiftUp W b.val ((A : Int) - (B : Int))) := rfl
  have hsub : (opSub a b).val = wrap W (a.val - shiftUp W b.val ((A : Int) - (B : Int))) := rfl
  refine ⟨⟨hadd, hsub⟩, fun h => by rw [hadd, wrap_eq_self W _ hW h],
    fun h => by rw [hsub, wrap_eq_self W _ hW h], fun hBA hb => ?_, fun hAB => ?_⟩
  · have hs : shiftUp W b.val ((A : Int) - (B : Int)) = b.val * 2 ^ (A - B) := by
      rw [shiftUp_widen W b.val A B hBA, wrap_eq_self W _ hW hb]
    have hpow : (2 : ℚ) ^ A = 2 ^ B * 2 ^ (A - B) := by
      rw [← pow_add]
      congr 1
      omega
    have hB : (2 : ℚ) ^ B ≠ 0 := by positivity
    have hk : (2 : ℚ) ^ (A - B) ≠ 0 := by positivity
    constructor
    · intro h
      rw [hadd, hs, wrap_eq_self W _ hW h, hpow]
      push_cast
      field_simp
      ring
    · intro h
      rw [hsub, hs, wrap_eq_self W _ hW h, hpow]
      push_cast
      field_simp
      ring
  · have hs : shiftUp W b.val ((A : Int) - (B : Int)) = b.val / 2 ^ (B - A) :=
      shiftUp_narrow W b.val A B hAB
    obtain ⟨hb1, hb2⟩ := narrowed_value_bounds b.val A B hAB
    constructor
    · intro h
      have hv : (opAdd a b).val = a.val + b.val / 2 ^ (B - A) := by
        rw [hadd, hs, wrap_eq_self W _ hW h]
      refine ⟨hv, ?_, ?_⟩
      · rw [hv]
        push_cast
        rw [add_div]
        linarith
      · rw [hv]
        push_cast
        rw [add_div]
        linarith
    · intro h
      have hv : (opSub a b).val = a.val - b.val / 2 ^ (B - A) := by
        rw [hsub, hs, wrap_eq_self W _ hW h]
      refine ⟨hv, ?_, ?_⟩
      · rw [hv]
        push_cast
        rw [sub_div]
        linarith
      · rw [hv]
        push_cast
        rw [sub_div]
        linarith

/-- Witness for C14: 32-bit storage, `a` with 4 fractional bits and raw 24 (1.5),
`b` with 8 fractional bits and raw -1 (-1/256): `a + b` has raw value 23. -/
theorem C14_add_sub_receiver_precision_witness :
    (0 < LONG_BITS ∧ 4 < 8 ∧ inRange LONG_BITS (24 + (-1) / 2 ^ (8 - 4))) ∧
    (opAdd (Pass 24 : FixPoint 4 LONG_BITS) (Pass (-1) : FixPoint 8 LONG_BITS)).val
      = 24 + (-1) / 2 ^ (8 - 4) ∧
    (opAdd (Pass 24 : FixPoint 4 LONG_BITS) (Pass (-1) : FixPoint 8 LONG_BITS)).val = 23 :=
  ⟨by decide,
   (((C14_add_sub_receiver_precision 4 8 LONG_BITS (Pass 24) (Pass (-1)) (by decide)).2.2.2.2
     (by decide)).1 (by decide)).1,
   by decide⟩

theorem FracMult_eq (FRAC_BITS W : Nat) (h : FRAC_BITS + 1 < W) :
    FracMult FRAC_BITS W = 2 ^ FRAC_BITS := by
  unfold FracMult shl
  rw [one_mul]
  exact wrap_eq_self W _ (by omega) (two_pow_inRange W _ h)

/-- **C15.** Integer/fraction decomposition: for every raw value `val`,
negative ones included, `0 ≤ getFracRaw() < 2^FRAC_BITS` and
`val == getFloor() * 2^FRAC_BITS + getFracRaw()`; `getFrac()` is a
same-precision FixPoint whose raw value is `getFracRaw()` and whose
`getFloor()` is 0.  When `2^FRAC_BITS` is a value of the storage type
(`FRAC_BITS + 1` below the width), `FracMult()` is that number, so that
`getFracRaw() < FracMult()` and `val == getFloor() * FracMult() + getFracRaw()`. -/
theorem C15_frac_decomposition (FRAC_BITS W : Nat) (x : FixPoint FRAC_BITS W)
    (hW : FRAC_BITS < W) :
    (0 ≤ getFracRaw x ∧ getFracRaw x < 2 ^ FRAC_BITS) ∧
    x.val = getFloor x * 2 ^ FRAC_BITS + getFracRaw x ∧
    (getFrac x).val = getFracRaw x ∧
    getFloor (getFrac x) = 0 ∧
    (FRAC_BITS + 1 < W →
      getFracRaw x < FracMult FRAC_BITS W ∧
      x.val = getFloor x * FracMult FRAC_BITS W + getFracRaw x) := by
  have hP : (0 : Int) < 2 ^ FRAC_BITS := by positivity
  have hfr : getFracRaw x = x.val % 2 ^ FRAC_BITS := by
    unfold getFracRaw
    rw [FracMask_eq _ _ hW, land_mask]
  have h0 := Int.emod_nonneg x.val (ne_of_gt hP)
  have h1 := Int.emod_lt_of_pos x.val hP
  have hdec : x.val = getFloor x * 2 ^ FRAC_BITS + getFracRaw x := by
    rw [hfr, getFloor_eq]
    have := Int.emod_add_ediv x.val (2 ^ FRAC_BITS)
    linarith
  refine ⟨⟨by rw [hfr]; exact h0, by rw [hfr]; exact h1⟩, hdec, rfl, ?_, fun hW1 => ?_⟩
  · rw [getFloor_eq]
    show getFracRaw x / 2 ^ FRAC_BITS = 0
    rw [hfr]
    exact Int.ediv_eq_zero_of_lt h0 h1
  · rw [FracMult_eq _ _ hW1]
    exact ⟨by rw [hfr]; exact h1, hdec⟩

/-- Witness for C15: `FRAC_BITS = 8`, 32-bit storage, `val = -1`:
`getFloor()` is -1 and `getFracRaw()` is 255. -/
theorem C15_frac_decomposition_witness :
    8 < LONG_BITS ∧
    (Pass (-1) : FixPoint 8 LONG_BITS).val
      = getFloor (Pass (-1) : FixPoint 8 LONG_BITS) * 2 ^ 8
        + getFracRaw (Pass (-1) : FixPoint 8 LONG_BITS) ∧
    getFloor (Pass (-1) : FixPoint 8 LONG_BITS) = -1 ∧
    getFracRaw (Pass (-1) : FixPoint 8 LONG_BITS) = 255 := by
  have h := (C15_frac_decomposition 8 LONG_BITS (Pass (-1)) (by decide)).2.1
  have hf : getFloor (Pass (-1) : FixPoint 8 LONG_BITS) = -1 := by decide
  refine ⟨by decide, h, hf, ?_⟩
  rw [hf] at h
  have hv : (Pass (-1) : FixPoint 8 LONG_BITS).val = -1 := rfl
  rw [hv] at h
  norm_num at h
  linarith

/-- Converting a FixPoint to its own precision leaves a storage value unchanged. -/
theorem ofFixPoint_same_val (v : FixPoint FRAC_BITS W) (hW : 0 < W) (hv : inRange W v.val) :
    (ofFixPoint v : FixPoint FRAC_BITS W).val = v.val := by
  show (setTrunc _ v).val = _
  rw [setTrunc_val, shiftUp_widen W v.val FRAC_BITS FRAC_BITS (le_refl _)]
  simp only [Nat.sub_self, pow_zero, mul_one]
  exact wrap_eq_self W _ hW hv

/-- The three free operators that reach a member operation agree with
converting the integer first: for `n * 2^FRAC_BITS` in the (32-bit) storage
range, `n + x`, `n - x` and `n / x` have the raw value of `FixPoint(n) + x`,
`FixPoint(n) - x` and `FixPoint(n) / x`, for an `int` and for a storage-typed
`n`. -/
theorem free_add_sub_div_agree (FRAC_BITS : Nat) (n : Int) (x : FixPoint FRAC_BITS LONG_BITS)
    (hn : inRange LONG_BITS (n * 2 ^ FRAC_BITS)) (hx : inRange LONG_BITS x.val) :
    ((freeAddInt n x).val = (opAdd (ofInt n : FixPoint FRAC_BITS LONG_BITS) x).val ∧
      (freeSubInt n x).val = (opSub (ofInt n : FixPoint FRAC_BITS LONG_BITS) x).val ∧
      (freeDivInt n x).val = (opDiv (ofInt n : FixPoint FRAC_BITS LONG_BITS) x).val) ∧
    ((freeAddT n x).val = (opAdd (ofT n : FixPoint FRAC_BITS LONG_BITS) x).val ∧
      (freeSubT n x).val = (opSub (ofT n : FixPoint FRAC_BITS LONG_BITS) x).val ∧
      (freeDivT n x).val = (opDiv (ofT n : FixPoint FRAC_BITS LONG_BITS) x).val) ∧
    (inRange LONG_BITS (n * 2 ^ FRAC_BITS + x.val) →
      (freeAddInt n x).val = n * 2 ^ FRAC_BITS + x.val) := by
  have hW : 0 < LONG_BITS := by norm_num
  obtain ⟨hI, hT⟩ := ofInt_val LONG_BITS FRAC_BITS n hW hn
  have hxs := ofFixPoint_same_val x hW hx
  have haddI : (freeAddInt n x).val = wrap LONG_BITS (n * 2 ^ FRAC_BITS + x.val) := by
    show wrap LONG_BITS (x.val + (ofInt n : FixPoint FRAC_BITS LONG_BITS).val) = _
    rw [hI, add_comm]
  have haddT : (freeAddT n x).val = wrap LONG_BITS (n * 2 ^ FRAC_BITS + x.val) := by
    show wrap LONG_BITS (x.val + (ofT n : FixPoint FRAC_BITS LONG_BITS).val) = _
    rw [hT, add_comm]
  refine ⟨⟨?_, rfl, rfl⟩, ⟨?_, rfl, rfl⟩, fun h => by rw [haddI, wrap_eq_self _ _ hW h]⟩
  · rw [haddI]
    show _ = wrap LONG_BITS ((ofInt n : FixPoint FRAC_BITS LONG_BITS).val + (ofFixPoint x).val)
    rw [hI, hxs]
  · rw [haddT]
    show _ = wrap LONG_BITS ((ofT n : FixPoint FRAC_BITS LONG_BITS).val + (ofFixPoint x).val)
    rw [hT, hxs]

/-- The member products `x * n` (`operator * (int)` and `operator * (T)`, exact
integer arithmetic on `val`) agree with `FixPoint(n) * x`. -/
theorem member_mul_agree (FRAC_BITS : Nat) (n : Int) (x : FixPoint FRAC_BITS LONG_BITS)
    (hn : inRange LONG_BITS (n * 2 ^ FRAC_BITS)) (hx : inRange LONG_BITS x.val) :
    (opMulInt x n).val = (opMul (ofInt n : FixPoint FRAC_BITS LONG_BITS) x).val ∧
    (opMulT x n).val = (opMul (ofT n : FixPoint FRAC_BITS LONG_BITS) x).val ∧
    (opMulInt x n).val = wrap LONG_BITS (x.val * n) := by
  have hW : 0 < LONG_BITS := by norm_num
  obtain ⟨hI, hT⟩ := ofInt_val LONG_BITS FRAC_BITS n hW hn
  have hnr : inRange LONG_BITS n := inRange_of_mul_pow LONG_BITS FRAC_BITS n hn
  have hP : (0 : Int) < 2 ^ FRAC_BITS := by positivity
  have hquot : n * 2 ^ FRAC_BITS * x.val / 2 ^ FRAC_BITS = x.val * n := by
    have e : n * 2 ^ FRAC_BITS * x.val = x.val * n * 2 ^ FRAC_BITS := by ring
    rw [e, Int.mul_ediv_cancel _ (ne_of_gt hP)]
  have hmulI : (opMulInt x n).val = wrap LONG_BITS (x.val * n) := by
    show wrap LONG_BITS (x.val * wrap LONG_BITS n) = _
    rw [wrap_eq_self _ n hW hnr]
  have hmulT : (opMulT x n).val = wrap LONG_BITS (x.val * n) := rfl
  refine ⟨?_, ?_, hmulI⟩
  · rw [hmulI, opMul_val, doMul64Trunc_val _ x (by rw [hI]; exact hn) hx, hI, hquot]
  · rw [hmulT, opMul_val, doMul64Trunc_val _ x (by rw [hT]; exact hn) hx, hT, hquot]

/-! ### Evaluating the `float` rounding -/

theorem log2_eq (x : ℚ) (e : Int) (h1 : (2 : ℚ) ^ e ≤ x) (h2 : x < (2 : ℚ) ^ (e + 1)) :
    Int.log 2 x = e := by
  have hx : 0 < x := lt_of_lt_of_le (by positivity) h1
  have a : e ≤ Int.log 2 x :=
    (Int.zpow_le_iff_le_log (by norm_num) hx).mp (by exact_mod_cast h1)
  have b : Int.log 2 x < e + 1 :=
    (Int.lt_zpow_iff_log_lt (by norm_num) hx).mp (by exact_mod_cast h2)
  omega

/-- Rounding a value whose binary exponent is `e` and whose scaled significand
rounds to `q`. -/
theorem roundFloat_eq (x : ℚ) (e q : Int) (h1 : (2 : ℚ) ^ e ≤ |x|)
    (h2 : |x| < (2 : ℚ) ^ (e + 1)) (hq : roundHalfEven (x / 2 ^ (e - 23)) = q) :
    roundFloat x = (q : ℚ) * 2 ^ (e - 23) := by
  have hx : x ≠ 0 := by
    intro h
    rw [h, abs_zero] at h1
    exact absurd h1 (not_le.mpr (by positivity))
  unfold roundFloat
  rw [if_neg hx, log2_eq _ e h1 h2, hq]

theorem roundHalfEven_int (f : Int) : roundHalfEven (f : ℚ) = f := by
  unfold roundHalfEven
  simp

theorem roundHalfEven_tie_even (f : Int) (hf : f % 2 = 0) :
    roundHalfEven ((f : ℚ) + 1 / 2) = f := by
  have hfl : ⌊(f : ℚ) + 1 / 2⌋ = f := by
    rw [Int.floor_eq_iff]
    constructor <;> norm_num
  unfold roundHalfEven
  rw [hfl]
  norm_num [hf]

/-- Every value `m * 2^e` with a significand of at most 24 bits is a `float`:
rounding leaves it unchanged. -/
theorem roundFloat_exact (m e : Int) (hm : |m| < 2 ^ 24) :
    roundFloat ((m : ℚ) * 2 ^ e) = (m : ℚ) * 2 ^ e := by
  by_cases hm0 : m = 0
  · simp [hm0, roundFloat]
  have h2 : (2 : ℚ) ≠ 0 := by norm_num
  have hmq : (0 : ℚ) < |(m : ℚ)| := abs_pos.mpr (by exact_mod_cast hm0)
  have hlo := Int.zpow_log_le_self (R := ℚ) (b := 2) (by norm_num) hmq
  have hhi := Int.lt_zpow_succ_log_self (R := ℚ) (b := 2) (by norm_num) |(m : ℚ)|
  push_cast at hlo hhi
  set j := Int.log 2 |(m : ℚ)| with hj
  have hm1 : (1 : ℚ) ≤ |(m : ℚ)| := by
    have : (1 : Int) ≤ |m| := Int.one_le_abs hm0
    exact_mod_cast this
  have hj0 : 0 ≤ j := by
    rw [hj, ← Int.zpow_le_iff_le_log (by norm_num) hmq]
    simpa using hm1
  have hmq24 : |(m : ℚ)| < 2 ^ (24 : Int) := by
    have : ((|m| : Int) : ℚ) < ((2 ^ 24 : Int) : ℚ) := by exact_mod_cast hm
    push_cast at this
    calc |(m : ℚ)| < 2 ^ 24 := this
      _ = 2 ^ (24 : Int) := by norm_num
  have hj23 : j < 24 := by
    have : (2 : ℚ) ^ j < 2 ^ (24 : Int) := lt_of_le_of_lt hlo hmq24
    exact (zpow_lt_zpow_iff_right₀ (by norm_num)).mp this
  have hpe : (0 : ℚ) < 2 ^ e := by positivity
  have habs : |(m : ℚ) * 2 ^ e| = |(m : ℚ)| * 2 ^ e := by
    rw [abs_mul, abs_of_pos hpe]
  obtain ⟨k, hk⟩ : ∃ k : Nat, (k : Int) = 23 - j := ⟨(23 - j).toNat, by omega⟩
  have hsig : (m : ℚ) * 2 ^ e / 2 ^ (j + e - 23) = ((m * 2 ^ k : Int) : ℚ) := by
    have : (2 : ℚ) ^ e = 2 ^ (j + e - 23) * 2 ^ (k : Int) := by
      rw [← zpow_add₀ h2]
      congr 1
      omega
    rw [this, zpow_natCast]
    push_cast
    field_simp
    ring
  rw [roundFloat_eq _ (j + e) (m * 2 ^ k)
    (by rw [habs, zpow_add₀ h2]; exact mul_le_mul_of_nonneg_right hlo (le_of_lt hpe))
    (by
      rw [habs, show j + e + 1 = (j + 1) + e by ring, zpow_add₀ h2]
      exact mul_lt_mul_of_pos_right hhi hpe)
    (by rw [hsig, roundHalfEven_int])]
  rw [← hsig]
  field_simp

theorem roundFloat_int (m : Int) (hm : |m| < 2 ^ 24) : roundFloat (m : ℚ) = (m : ℚ) := by
  have h := roundFloat_exact m 0 hm
  simpa using h

theorem truncInt_int (z : Int) : truncInt (z : ℚ) = z := by
  unfold truncInt
  split_ifs <;> simp

/-- The integer `2^24 + 1` is not a `float`: it lies midway between two
neighbours and rounds to the even one, `2^24`. -/
theorem roundFloat_16777217 : roundFloat 16777217 = 16777216 := by
  rw [roundFloat_eq 16777217 24 8388608 (by norm_num) (by norm_num)
    (by
      have : (16777217 : ℚ) / 2 ^ ((24 : Int) - 23) = ((8388608 : Int) : ℚ) + 1 / 2 := by
        norm_num
      rw [this, roundHalfEven_tie_even _ (by decide)])]
  norm_num

/-- Where the `float` detour is harmless: when `x.val`, `n` and their product
all have fewer than 25 significant bits, every `float` operation on the way
is exact and `n * x` has raw value `x.val * n`. -/
theorem freeMul_exact_of_small (FRAC_BITS : Nat) (n : Int) (x : FixPoint FRAC_BITS LONG_BITS)
    (hF : FRAC_BITS + 1 < LONG_BITS) (hx : |x.val| < 2 ^ 24) (hn : |n| < 2 ^ 24)
    (hp : |x.val * n| < 2 ^ 24) :
    (freeMulInt n x).val = x.val * n ∧ (freeMulT n x).val = x.val * n := by
  have h2 : (2 : ℚ) ≠ 0 := by norm_num
  have hmult : ((FracMult FRAC_BITS LONG_BITS : Int) : ℚ) = (2 : ℚ) ^ (FRAC_BITS : Int) := by
    rw [FracMult_eq _ _ hF]
    push_cast
    rw [zpow_natCast]
  have hP : roundFloat ((2 : ℚ) ^ (FRAC_BITS : Int)) = (2 : ℚ) ^ (FRAC_BITS : Int) := by
    have h := roundFloat_exact 1 (FRAC_BITS : Int) (by norm_num)
    simpa using h
  have hinv : roundFloat (1 / (2 : ℚ) ^ (FRAC_BITS : Int)) = (2 : ℚ) ^ (-(FRAC_BITS : Int)) := by
    have h := roundFloat_exact 1 (-(FRAC_BITS : Int)) (by norm_num)
    rw [one_div, ← zpow_neg]
    simpa using h
  have hF' : toFloat x = (x.val : ℚ) * (2 : ℚ) ^ (-(FRAC_BITS : Int)) := by
    unfold toFloat
    rw [hmult, hP, hinv, roundFloat_int _ hx, mul_comm]
    exact roundFloat_exact _ _ hx
  have hval : (freeMulInt n x).val = x.val * n := by
    show wrap LONG_BITS (truncInt (roundFloat
      (roundFloat (toFloat x * roundFloat (n : ℚ))
        * roundFloat ((FracMult FRAC_BITS LONG_BITS : Int) : ℚ)))) = x.val * n
    have e1 : (x.val : ℚ) * (2 : ℚ) ^ (-(FRAC_BITS : Int)) * (n : ℚ)
        = ((x.val * n : Int) : ℚ) * (2 : ℚ) ^ (-(FRAC_BITS : Int)) := by
      push_cast
      ring
    have e2 : ((x.val * n : Int) : ℚ) * (2 : ℚ) ^ (-(FRAC_BITS : Int))
        * (2 : ℚ) ^ (FRAC_BITS : Int) = ((x.val * n : Int) : ℚ) := by
      rw [mul_assoc, ← zpow_add₀ h2]
      simp
    rw [hF', hmult, hP, roundFloat_int _ hn, e1, roundFloat_exact _ _ hp, e2,
      roundFloat_int _ hp, truncInt_int]
    apply wrap_eq_self _ _ (by norm_num)
    rw [inRange32_iff]
    rw [abs_lt] at hp
    norm_num at hp
    constructor <;> omega
  exact ⟨hval, hval⟩

/-- **C16 (the code evaluated at the failing input).** `FRAC_BITS = 8`, 32-bit
storage, `n = 1`, `x.val = 16777217` (`2^24 + 1`); `n * 2^FRAC_BITS` fits and
nothing overflows.  `FixPoint(n) * x` has raw value 16777217, and so has the
member product `x * n`.  The free operator `n * x` cannot reach that member
through its reference to `const`: it converts `x` with `operator F()`, where
`(float)16777217` is 16777216 and the converted value is 65536.0, multiplies
in `float` and converts back with `FixPoint(float)`, returning raw value
16777216, for an `int` and for a storage-typed `n` alike.  At the same input
`n + x`, `n - x` and `n / x` do agree with the converted form. -/
theorem C16_free_mul_through_float :
    (inRange LONG_BITS (1 * 2 ^ 8) ∧ inRange LONG_BITS 16777217 ∧
      inRange LONG_BITS (16777217 * 1)) ∧
    (opMul (ofInt 1 : FixPoint 8 LONG_BITS) (Pass 16777217 : FixPoint 8 LONG_BITS)).val
      = 16777217 ∧
    (opMulInt (Pass 16777217 : FixPoint 8 LONG_BITS) 1).val = 16777217 ∧
    toFloat (Pass 16777217 : FixPoint 8 LONG_BITS) = 65536 ∧
    (freeMulInt 1 (Pass 16777217 : FixPoint 8 LONG_BITS)).val = 16777216 ∧
    (freeMulT 1 (Pass 16777217 : FixPoint 8 LONG_BITS)).val = 16777216 ∧
    (freeMulInt 1 (Pass 16777217 : FixPoint 8 LONG_BITS)).val
      ≠ (opMul (ofInt 1 : FixPoint 8 LONG_BITS) (Pass 16777217 : FixPoint 8 LONG_BITS)).val ∧
    ((freeAddInt 1 (Pass 16777217 : FixPoint 8 LONG_BITS)).val
        = (opAdd (ofInt 1 : FixPoint 8 LONG_BITS) (Pass 16777217 : FixPoint 8 LONG_BITS)).val ∧
      (freeSubInt 1 (Pass 16777217 : FixPoint 8 LONG_BITS)).val
        = (opSub (ofInt 1 : FixPoint 8 LONG_BITS) (Pass 16777217 : FixPoint 8 LONG_BITS)).val ∧
      (freeDivInt 1 (Pass 16777217 : FixPoint 8 LONG_BITS)).val
        = (opDiv (ofInt 1 : FixPoint 8 LONG_BITS) (Pass 16777217 : FixPoint 8 LONG_BITS)).val) := by
  have hmult : ((FracMult 8 LONG_BITS : Int) : ℚ) = 256 := by
    have : FracMult 8 LONG_BITS = 256 := by decide
    rw [this]
    norm_num
  have h256 : roundFloat 256 = 256 := by
    have h := roundFloat_int 256 (by norm_num)
    simpa using h
  have hinv : roundFloat (1 / 256) = 1 / 256 := by
    have h := roundFloat_exact 1 (-8) (by norm_num)
    norm_num at h
    norm_num
    exact h
  have h65536 : roundFloat 65536 = 65536 := by
    have h := roundFloat_int 65536 (by norm_num)
    simpa using h
  have h1 : roundFloat 1 = 1 := by
    have h := roundFloat_int 1 (by norm_num)
    simpa using h
  have hbig : roundFloat 16777216 = 16777216 := by
    have h := roundFloat_exact 1 24 (by norm_num)
    norm_num at h
    exact h
  have hF : toFloat (Pass 16777217 : FixPoint 8 LONG_BITS) = 65536 := by
    show roundFloat (roundFloat (1 / roundFloat ((FracMult 8 LONG_BITS : Int) : ℚ))
      * roundFloat ((16777217 : Int) : ℚ)) = 65536
    rw [hmult, h256, hinv]
    have e1 : (((16777217 : Int) : ℚ)) = 16777217 := by norm_num
    rw [e1, roundFloat_16777217]
    have e2 : (1 : ℚ) / 256 * 16777216 = 65536 := by norm_num
    rw [e2, h65536]
  have hfree : (freeMulInt 1 (Pass 16777217 : FixPoint 8 LONG_BITS)).val = 16777216 := by
    show wrap LONG_BITS (truncInt (roundFloat
      (roundFloat (toFloat (Pass 16777217 : FixPoint 8 LONG_BITS) * roundFloat ((1 : Int) : ℚ))
        * roundFloat ((FracMult 8 LONG_BITS : Int) : ℚ)))) = 16777216
    rw [hF, hmult, h256]
    have e1 : (((1 : Int) : ℚ)) = 1 := by norm_num
    rw [e1, h1]
    have e2 : (65536 : ℚ) * 1 = 65536 := by norm_num
    rw [e2, h65536]
    have e3 : (65536 : ℚ) * 256 = 16777216 := by norm_num
    rw [e3, hbig]
    have e4 : (16777216 : ℚ) = ((16777216 : Int) : ℚ) := by norm_num
    rw [e4, truncInt_int]
    decide
  have hconv : (opMul (ofInt 1 : FixPoint 8 LONG_BITS)
      (Pass 16777217 : FixPoint 8 LONG_BITS)).val = 16777217 := by decide
  refine ⟨by decide, hconv, by decide, hF, hfree, hfree, ?_, ?_⟩
  · rw [hfree, hconv]
    decide
  · exact ⟨by decide, by decide, by decide⟩

/-- **C18.** Comparison narrows the right operand and is therefore lossy and
asymmetric: for a left operand `a` with `A` fractional bits and a right
operand `b` with `B > A` fractional bits, `a == b` is true exactly when
`a.val == ⌊b.val / 2^(B-A)⌋`, so it can hold for operands that represent
different values, and swapping the operands can change the answer.  With `a`
of 4 fractional bits and raw 24, `b` of 8 fractional bits and raw 385:
`a == b` is true, `b == a` is false, and the two represent different values. -/
theorem C18_eq_narrowing (A B W : Nat) (a : FixPoint A W) (b : FixPoint B W) (hAB : A < B) :
    (opEq a b = true ↔ a.val = b.val / 2 ^ (B - A)) ∧
    (opEq a b = true ↔ a.val = ⌊(b.val : ℚ) / 2 ^ (B - A)⌋) ∧
    (opEq (Pass 24 : FixPoint 4 LONG_BITS) (Pass 385 : FixPoint 8 LONG_BITS) = true ∧
      opEq (Pass 385 : FixPoint 8 LONG_BITS) (Pass 24 : FixPoint 4 LONG_BITS) = false ∧
      ((24 : Int) : ℚ) / 2 ^ 4 ≠ ((385 : Int) : ℚ) / 2 ^ 8) := by
  have hconv : (ofFixPoint b : FixPoint A W).val = b.val / 2 ^ (B - A) := by
    show (setTrunc _ b).val = _
    rw [setTrunc_val, shiftUp_narrow W b.val A B hAB]
  have h1 : opEq a b = true ↔ a.val = b.val / 2 ^ (B - A) := by
    unfold opEq
    rw [decide_eq_true_eq, hconv]
  have hP : (0 : Int) < 2 ^ (B - A) := by positivity
  have hcast : ((2 : ℚ) ^ (B - A)) = (((2 : Int) ^ (B - A) : Int) : ℚ) := by push_cast; rfl
  refine ⟨h1, ?_, by decide, by decide, by norm_num⟩
  rw [h1, hcast, rat_floor_div _ _ hP]

/-- Witness for C18: 32-bit storage, `a` of 4 fractional bits and raw -2,
`b` of 8 fractional bits and raw -17 (floor of -17/16 is -2): `a == b` is true. -/
theorem C18_eq_narrowing_witness :
    4 < 8 ∧
    (opEq (Pass (-2) : FixPoint 4 LONG_BITS) (Pass (-17) : FixPoint 8 LONG_BITS) = true ↔
      (-2 : Int) = (-17) / 2 ^ (8 - 4)) ∧
    opEq (Pass (-2) : FixPoint 4 LONG_BITS) (Pass (-17) : FixPoint 8 LONG_BITS) = true :=
  ⟨by decide,
   (C18_eq_narrowing 4 8 LONG_BITS (Pass (-2)) (Pass (-17)) (by decide)).1,
   by decide⟩

/-- **C19.** Subtraction undoes addition at the receiver's precision: for
every FixPoint `a` and every FixPoint `b` of any fractional-bit count,
`(a + b) - b` has exactly the raw value `a.val`, also when the intermediate
sum wraps around modulo `2^W`, because both operators convert `b` to `a`'s
precision in the same way. -/
theorem C19_add_then_sub (A B W : Nat) (a : FixPoint A W) (b : FixPoint B W)
    (hW : 0 < W) (ha : inRange W a.val) :
    (opSub (opAdd a b) b).val = a.val := by
  show wrap W (wrap W (a.val + (ofFixPoint b : FixPoint A W).val)
    - (ofFixPoint b : FixPoint A W).val) = a.val
  rw [sub_eq_add_neg, wrap_add_wrap, add_neg_cancel_right]
  exact wrap_eq_self W _ hW ha

/-- Witness for C19 with a wrapping sum: 32-bit storage, 8 fractional bits,
`a.val = 2^31 - 1`, `b.val = 1`: the sum wraps to `-2^31` and the difference
returns to `2^31 - 1`. -/
theorem C19_add_then_sub_witness :
    (0 < LONG_BITS ∧ inRange LONG_BITS 2147483647) ∧
    (opAdd (Pass 2147483647 : FixPoint 8 LONG_BITS) (Pass 1 : FixPoint 8 LONG_BITS)).val
      = -2147483648 ∧
    (opSub (opAdd (Pass 2147483647 : FixPoint 8 LONG_BITS) (Pass 1 : FixPoint 8 LONG_BITS))
      (Pass 1 : FixPoint 8 LONG_BITS)).val = 2147483647 :=
  ⟨by decide, by decide,
   C19_add_then_sub 8 8 LONG_BITS (Pass 2147483647) (Pass 1) (by decide) (by decide)⟩

/-- A multiple of `P` plus a remainder below `P`, divided by `P`. -/
theorem mul_add_ediv_small (q P e : Int) (hP : 0 < P) (h0 : 0 ≤ e) (h1 : e < P) :
    (q * P + e) / P = q := by
  rw [add_comm, Int.add_mul_ediv_right _ _ (ne_of_gt hP), Int.ediv_eq_zero_of_lt h0 h1]
  simp

/-- **C20.** The three precision-changing setters are ordered: for every
target precision `FRAC_BITS` and every FixPoint source of any `FRAC_BITS2`,
without overflow in the bias additions, the raw values satisfy
`setTrunc(src) ≤ setClosest(src) ≤ setClosestHigher(src)` with
`setClosestHigher(src) - setTrunc(src)` being 0 or 1; all three coincide
exactly when the source bits below the target precision are all zero, which
is always the case when `FRAC_BITS2 ≤ FRAC_BITS`. -/
theorem C20_setters_ordered (FRAC_BITS FRAC_BITS2 W : Nat) (r : FixPoint FRAC_BITS W)
    (src : FixPoint FRAC_BITS2 W) (hW : 0 < W) (hsrc : inRange W src.val) :
    (FRAC_BITS < FRAC_BITS2 → inRange W (src.val + 2 ^ (FRAC_BITS2 - FRAC_BITS) - 1) →
      (setTrunc r src).val ≤ (setClosest r src).val ∧
      (setClosest r src).val ≤ (setClosestHigher r src).val ∧
      ((setClosestHigher r src).val - (setTrunc r src).val = 0 ∨
        (setClosestHigher r src).val - (setTrunc r src).val = 1) ∧
      (((setTrunc r src).val = (setClosest r src).val ∧
          (setClosest r src).val = (setClosestHigher r src).val) ↔
        Int.land src.val (2 ^ (FRAC_BITS2 - FRAC_BITS) - 1) = 0)) ∧
    (FRAC_BITS2 ≤ FRAC_BITS →
      (setTrunc r src).val = (setClosest r src).val ∧
      (setClosest r src).val = (setClosestHigher r src).val) := by
  constructor
  · intro hlt hno
    have hP : (0 : Int) < 2 ^ (FRAC_BITS2 - FRAC_BITS) := by positivity
    have hH : (0 : Int) < 2 ^ (FRAC_BITS2 - FRAC_BITS - 1) := by positivity
    have h2 := two_pow_pred_add (FRAC_BITS2 - FRAC_BITS) (by omega)
    have hnoc : inRange W (src.val + 2 ^ (FRAC_BITS2 - FRAC_BITS - 1)) := by
      unfold inRange at *
      constructor <;> omega
    have ht : (setTrunc r src).val = src.val / 2 ^ (FRAC_BITS2 - FRAC_BITS) := by
      rw [setTrunc_val, shiftUp_narrow W _ FRAC_BITS FRAC_BITS2 hlt]
    have hc := setClosest_val_narrow r src hW hlt hnoc
    have hh := setClosestHigher_val_narrow r src hW hlt hno
    have hr0 := Int.emod_nonneg src.val (ne_of_gt hP)
    have hr1 := Int.emod_lt_of_pos src.val hP
    have hdec := Int.emod_add_ediv src.val (2 ^ (FRAC_BITS2 - FRAC_BITS))
    have hle1 : (setTrunc r src).val ≤ (setClosest r src).val := by
      rw [ht, hc]
      exact Int.ediv_le_ediv hP (by omega)
    have hle2 : (setClosest r src).val ≤ (setClosestHigher r src).val := by
      rw [hc, hh]
      exact Int.ediv_le_ediv hP (by omega)
    have hle3 : (setClosestHigher r src).val ≤ (setTrunc r src).val + 1 := by
      rw [ht, hh]
      have h3 : (src.val + 2 ^ (FRAC_BITS2 - FRAC_BITS) - 1) / 2 ^ (FRAC_BITS2 - FRAC_BITS)
          ≤ (src.val + 1 * 2 ^ (FRAC_BITS2 - FRAC_BITS)) / 2 ^ (FRAC_BITS2 - FRAC_BITS) :=
        Int.ediv_le_ediv hP (by omega)
      rw [Int.add_mul_ediv_right _ _ (ne_of_gt hP)] at h3
      exact h3
    refine ⟨hle1, hle2, by omega, ?_⟩
    rw [land_mask]
    constructor
    · rintro ⟨e1, e2⟩
      have e3 : (setClosestHigher r src).val = (setTrunc r src).val := by rw [← e2, ← e1]
      rw [ht, hh] at e3
      by_contra hne
      have hr : 1 ≤ src.val % 2 ^ (FRAC_BITS2 - FRAC_BITS) := by omega
      have e4 : src.val + 2 ^ (FRAC_BITS2 - FRAC_BITS) - 1
          = (src.val / 2 ^ (FRAC_BITS2 - FRAC_BITS) + 1) * 2 ^ (FRAC_BITS2 - FRAC_BITS)
            + (src.val % 2 ^ (FRAC_BITS2 - FRAC_BITS) - 1) := by
        linarith
      rw [e4, mul_add_ediv_small _ _ _ hP (by omega) (by omega)] at e3
      omega
    · intro hr
      have e4 : src.val
          = src.val / 2 ^ (FRAC_BITS2 - FRAC_BITS) * 2 ^ (FRAC_BITS2 - FRAC_BITS) := by
        linarith
      have ec : (setClosest r src).val = src.val / 2 ^ (FRAC_BITS2 - FRAC_BITS) := by
        rw [hc]
        conv_lhs => rw [e4]
        exact mul_add_ediv_small _ _ _ hP (le_of_lt hH) (by omega)
      have eh : (setClosestHigher r src).val = src.val / 2 ^ (FRAC_BITS2 - FRAC_BITS) := by
        rw [hh]
        conv_lhs => rw [e4]
        rw [add_sub_assoc]
        exact mul_add_ediv_small _ _ _ hP (by omega) (by omega)
      exact ⟨by rw [ht, ec], by rw [ec, eh]⟩
  · intro hle
    have hc := setClosest_val_widen r src hW hle hsrc
    have hh : (setClosestHigher r src).val = (setTrunc r src).val := by
      unfold setClosestHigher
      rw [if_neg (by omega)]
      rfl
    exact ⟨hc.symm, by rw [hc, hh]⟩

/-- Witness for C20: `FRAC_BITS = 4`, `FRAC_BITS2 = 8`, 32-bit storage,
`src.val = -23`: `setTrunc` gives -2, `setClosest` gives -1 and
`setClosestHigher` gives -1. -/
theorem C20_setters_ordered_witness :
    (0 < LONG_BITS ∧ inRange LONG_BITS (-23) ∧ 4 < 8 ∧
      inRange LONG_BITS (-23 + 2 ^ (8 - 4) - 1)) ∧
    ((setTrunc (Pass 0 : FixPoint 4 LONG_BITS) (Pass (-23) : FixPoint 8 LONG_BITS)).val
      ≤ (setClosest (Pass 0 : FixPoint 4 LONG_BITS) (Pass (-23) : FixPoint 8 LONG_BITS)).val) ∧
    (setTrunc (Pass 0 : FixPoint 4 LONG_BITS) (Pass (-23) : FixPoint 8 LONG_BITS)).val = -2 ∧
    (setClosest (Pass 0 : FixPoint 4 LONG_BITS) (Pass (-23) : FixPoint 8 LONG_BITS)).val = -1 ∧
    (setClosestHigher (Pass 0 : FixPoint 4 LONG_BITS) (Pass (-23) : FixPoint 8 LONG_BITS)).val
      = -1 :=
  ⟨by decide,
   ((C20_setters_ordered 4 8 LONG_BITS (Pass 0) (Pass (-23)) (by decide) (by decide)).1
     (by decide) (by decide)).1,
   by decide, by decide, by decide⟩

end FixPoint

end DtBlkFx
